import Mathlib

/-!
Verification of the data compaction engine of the eStat MCP server.

The definitions below are a shallow embedding of the TypeScript source:
`packTableInf`, `packClassInf`, `detectPivotDim`, `packDataInf`,
`normalizeValue` and `optimizeGroupingByCommonElements`, together with the
record types they operate on.  JS numbers are modelled as rationals, JS
objects as insertion-ordered association lists, and the list-or-singleton
union types of the upstream API as an explicit sum.
-/

set_option maxHeartbeats 1000000

namespace EStat

/-- Models the TS union type `T | T[]` used by the upstream API for
list-or-singleton fields. -/
inductive OneOrMany (α : Type) where
  | one (a : α)
  | many (l : List α)
deriving DecidableEq

/-- Embeds `toArray` from the source: `Array.isArray(value) ? value : [value]`. -/
def toArray {α : Type} : OneOrMany α → List α
  | .one a => [a]
  | .many l => l

/-- Helper for `dedupFirst`: walks the list keeping each element not yet in
the seen set. -/
def dedupFirstAux {α : Type} [DecidableEq α] (seen : List α) : List α → List α
  | [] => []
  | a :: l =>
    if seen.contains a then dedupFirstAux seen l
    else a :: dedupFirstAux (seen ++ [a]) l

/-- Insertion-order duplicate removal keeping the first occurrence of each
element; models the effect of guarding pushes with a JS `Set` of already seen
keys, or of inserting into a JS `Set` (whose iteration order is insertion
order). -/
def dedupFirst {α : Type} [DecidableEq α] (l : List α) : List α :=
  dedupFirstAux [] l

/-- A JS scalar as found in the `$` field of a value record
(`string | number`).  JS numbers are modelled as rationals. -/
inductive JsScalar where
  | str (s : String)
  | num (q : Rat)
deriving DecidableEq

/-- A cell of a packed row (`string | number | null`). -/
inductive Cell where
  | null
  | str (s : String)
  | num (q : Rat)
deriving DecidableEq

/-- Numeric value of a list of decimal digit characters. -/
def digitsVal (cs : List Char) : Nat :=
  cs.foldl (fun n c => n * 10 + (c.toNat - 48)) 0

/-- Parses an optional leading sign, returning a negativity flag and the
rest of the characters. -/
def parseSign : List Char → Bool × List Char
  | '-' :: rest => (true, rest)
  | '+' :: rest => (false, rest)
  | cs => (false, cs)

/-- Parses an unsigned decimal mantissa (`123`, `12.5`, `.5`, `12.`),
returning a value `m` and scale `k` (the mantissa is `m / 10 ^ k`) and the
unconsumed characters. -/
def parseMantissa? (cs : List Char) : Option ((Nat × Nat) × List Char) :=
  let ip := cs.takeWhile Char.isDigit
  let rest := cs.dropWhile Char.isDigit
  match rest with
  | '.' :: rest2 =>
    let fp := rest2.takeWhile Char.isDigit
    let rest3 := rest2.dropWhile Char.isDigit
    if ip.isEmpty && fp.isEmpty then none
    else some ((digitsVal (ip ++ fp), fp.length), rest3)
  | _ => if ip.isEmpty then none else some ((digitsVal ip, 0), rest)

/-- Parses a signed decimal exponent (the part after the `e`/`E` marker). -/
def parseExpDigits? (cs : List Char) : Option (Int × List Char) :=
  let sr : Bool × List Char :=
    match cs with
    | '-' :: r => (true, r)
    | '+' :: r => (false, r)
    | r => (false, r)
  let ds := sr.2.takeWhile Char.isDigit
  let rest2 := sr.2.dropWhile Char.isDigit
  if ds.isEmpty then none
  else some (if sr.1 then -(digitsVal ds : Int) else (digitsVal ds : Int), rest2)

/-- Builds the rational `± (mant / 10 ^ scale) * 10 ^ ex` using only
structural integer arithmetic and one final `mkRat` normalization. -/
def ratOfParts (neg : Bool) (mant : Nat) (scale : Nat) (ex : Int) : Rat :=
  let e : Int := ex - (scale : Int)
  let n : Int := if neg then -(mant : Int) else (mant : Int)
  if 0 ≤ e then mkRat (n * ((10 ^ e.toNat : Nat) : Int)) 1
  else mkRat n (10 ^ (-e).toNat)

/-- Models the JS conversion `Number(s)` on a trimmed string, returning
`some q` when the string denotes a finite number and `none` otherwise
(`NaN`, `Infinity`, malformed input).  The modelled fragment is signed
decimal notation with optional fraction and exponent; JS extras such as
hexadecimal literals are not modelled here, and doubles are modelled as
exact rationals. -/
def jsNumberParse? (s : String) : Option Rat :=
  let sc := parseSign s.data
  match parseMantissa? sc.2 with
  | none => none
  | some mr =>
    match mr.2 with
    | [] => some (ratOfParts sc.1 mr.1.1 mr.1.2 0)
    | 'e' :: r =>
      match parseExpDigits? r with
      | some (e, []) => some (ratOfParts sc.1 mr.1.1 mr.1.2 e)
      | _ => none
    | 'E' :: r =>
      match parseExpDigits? r with
      | some (e, []) => some (ratOfParts sc.1 mr.1.1 mr.1.2 e)
      | _ => none
    | _ => none

/-- Models `String.prototype.trim`: removes leading and trailing whitespace.
Implemented over the character list so that it evaluates inside the kernel. -/
def jsTrim (s : String) : String :=
  ⟨((s.data.dropWhile Char.isWhitespace).reverse.dropWhile Char.isWhitespace).reverse⟩

/-- Embeds `normalizeValue` from the source: numbers pass through; strings
are trimmed, an empty trim yields `null`, a finite numeric parse yields the
number and anything else keeps the trimmed string.  `Number.isFinite` on the
result of `Number(s)` is modelled by a successful `jsNumberParse?`. -/
def normalizeValue : JsScalar → Cell
  | .num x => .num x
  | .str x =>
    let s := jsTrim x
    if s = "" then .null
    else
      match jsNumberParse? s with
      | some n => .num n
      | none => .str s

/-- C6: `normalizeValue` returns numeric input unchanged; a string input is
trimmed, an empty trimmed string yields the null marker, a trimmed string
that parses to a finite number yields that number and any other string is
kept verbatim after trimming; in particular `"  12.5 "` yields the number
`12.5`, `""` and all-whitespace yield null, and `"N/A"` yields the string
`"N/A"`. -/
theorem normalizeValue_spec :
    (∀ q : Rat, normalizeValue (.num q) = .num q) ∧
    (∀ s : String, normalizeValue (.str s) =
      if jsTrim s = "" then .null
      else
        match jsNumberParse? (jsTrim s) with
        | some n => .num n
        | none => .str (jsTrim s)) ∧
    normalizeValue (.str "  12.5 ") = .num (mkRat 25 2) ∧
    normalizeValue (.str "") = .null ∧
    normalizeValue (.str "   ") = .null ∧
    normalizeValue (.str "N/A") = .str "N/A" := by
  refine ⟨fun q => rfl, fun s => rfl, by decide, by decide, by decide, by decide⟩

/-! Classification metadata (`CLASS_INF`) and pivot detection -/

/-- One `CLASS` entry of a classification dimension (`ClassObjClass`). -/
structure ClassObjClass where
  code : String
  name : String
  level : String := ""
  unit : Option String := none
  parentCode : Option String := none
  addInf : Option String := none
deriving DecidableEq

/-- One classification dimension (`CLASS_OBJ` element). -/
structure ClassObj where
  id : String
  name : String
  description : Option String := none
  EXPLANATION : Option String := none
  CLASS : OneOrMany ClassObjClass
deriving DecidableEq

/-- The classification tree `CLASS_INF`. -/
structure ClassInf where
  CLASS_OBJ : List ClassObj
deriving DecidableEq

/-- The fixed pivot-candidate vocabulary `tab, cat01..cat15` (written out;
the source generates the `catNN` names programmatically). -/
def PIVOT_CANDIDATE_KEYS : List String :=
  ["tab", "cat01", "cat02", "cat03", "cat04", "cat05", "cat06", "cat07",
   "cat08", "cat09", "cat10", "cat11", "cat12", "cat13", "cat14", "cat15"]

/-- All dimension keys that may appear on a value record (`area` and `time`
in addition to the pivot candidates). -/
def ALL_DIM_KEYS : List String := PIVOT_CANDIDATE_KEYS ++ ["area", "time"]

/-- The loop body of `detectPivotDim`: walks `CLASS_OBJ` in input order,
skips dimensions outside the candidate vocabulary, and returns the first
remaining dimension one of whose classes carries a `@unit`. -/
def detectPivotGo : List ClassObj → Option (ClassObj × String)
  | [] => none
  | obj :: rest =>
    if !(PIVOT_CANDIDATE_KEYS.contains obj.id) then detectPivotGo rest
    else if (toArray obj.CLASS).any (fun c => c.unit.isSome) then some (obj, obj.id)
    else detectPivotGo rest

/-- Embeds `detectPivotDim` from the source. -/
def detectPivotDim (classInf : ClassInf) : Option (ClassObj × String) :=
  detectPivotGo classInf.CLASS_OBJ

/-- A classification tree whose `CLASS_OBJ` list carries a unit-bearing
`cat01` before a unit-bearing `tab`. -/
def classInfC1 : ClassInf :=
  ⟨[{ id := "cat01", name := "Category 1",
      CLASS := .one { code := "01", name := "thing", unit := some "persons" } },
    { id := "tab", name := "Table",
      CLASS := .one { code := "X", name := "amount", unit := some "yen" } }]⟩

/-- C1 counterexample: with both `cat01` and `tab` carrying unit-bearing
codes but `cat01` placed first in the input `CLASS_OBJ` list,
`detectPivotDim` selects `cat01`, not `tab`: the scan follows `CLASS_OBJ`
input order, not the fixed vocabulary order claimed. -/
theorem detectPivotDim_input_order_refutes_C1 :
    (detectPivotDim classInfC1).map (fun p => p.2) = some "cat01" ∧
    (∃ obj ∈ classInfC1.CLASS_OBJ, obj.id = "tab" ∧
      (toArray obj.CLASS).any (fun c => c.unit.isSome) = true) :=
  ⟨by decide, by decide⟩

/-- C1 amended: `detectPivotDim` returns the first dimension in `CLASS_OBJ`
input order whose id belongs to the candidate vocabulary {tab, cat01..cat15}
and whose code list contains at least one unit-bearing code, so when several
candidate dimensions carry units the earliest one in the input list wins,
regardless of the vocabulary order. -/
theorem detectPivotDim_first_in_input_order (classInf : ClassInf) :
    detectPivotDim classInf =
      (classInf.CLASS_OBJ.find? (fun obj =>
        PIVOT_CANDIDATE_KEYS.contains obj.id &&
          (toArray obj.CLASS).any (fun c => c.unit.isSome))).map
        (fun obj => (obj, obj.id)) := by
  unfold detectPivotDim
  induction classInf.CLASS_OBJ with
  | nil => rfl
  | cons obj rest ih =>
    by_cases h1 : obj.id ∈ PIVOT_CANDIDATE_KEYS
    · have h1b : PIVOT_CANDIDATE_KEYS.contains obj.id = true := by simpa using h1
      by_cases h2 : ∃ x ∈ toArray obj.CLASS, x.unit.isSome = true
      · have h2b : (toArray obj.CLASS).any (fun c => c.unit.isSome) = true := by
          simpa using h2
        simp [detectPivotGo, List.find?, h1, h2, h1b, h2b]
      · have h2b : (toArray obj.CLASS).any (fun c => c.unit.isSome) = false := by
          simpa using h2
        simp [detectPivotGo, List.find?, h1, h2, h1b, h2b, ih]
    · have h1b : PIVOT_CANDIDATE_KEYS.contains obj.id = false := by simpa using h1
      simp [detectPivotGo, List.find?, h1, h1b, ih]

/-! Columnar table packer (`packTableInf`) -/

/-- The `{"@code", "$"}` pair used for `GOV_ORG` and similar fields. -/
structure CodeValue where
  code : String
  text : String
deriving DecidableEq

/-- The `TITLE` field of a table entry: a bare string or a `{"@no", "$"}`
pair. -/
inductive TitleV where
  | str (s : String)
  | withNo (no : String) (text : String)
deriving DecidableEq

/-- Embeds `getStringValue` from `types.ts`: a bare string is used as is,
otherwise the `$` text field is used. -/
def getStringValue : TitleV → String
  | .str s => s
  | .withNo _ t => t

/-- The fields of one `TABLE_INF` entry that `packTableInf` reads. -/
structure TableInf where
  id : String
  GOV_ORG : CodeValue
  STATISTICS_NAME : String
  TITLE : TitleV
deriving DecidableEq

/-- One `{c, r}` group of the packed output (column ids and rows). -/
structure TblGroup where
  c : List String
  r : List (List String)
deriving DecidableEq

/-- The `TablePacked` output structure; nested JS objects are modelled as
insertion-ordered association lists. -/
structure TablePacked where
  tbls : List (String × List (String × TblGroup))
deriving DecidableEq

/-- Key lookup in an insertion-ordered association list (JS object property
read). -/
def alGet {β : Type} (l : List (String × β)) (k : String) : Option β :=
  (l.find? (fun p => p.1 == k)).map (fun p => p.2)

/-- Updates the value stored at a key of an association list (JS object
property assignment on a present key); keys and order are unchanged. -/
def alUpd {β : Type} (l : List (String × β)) (k : String) (f : β → β) :
    List (String × β) :=
  match l with
  | [] => []
  | p :: rest => if p.1 == k then (p.1, f p.2) :: rest else p :: alUpd rest k f

theorem alGet_nil {β : Type} (k : String) : alGet ([] : List (String × β)) k = none := rfl

theorem alGet_append {β : Type} (l1 l2 : List (String × β)) (k : String) :
    alGet (l1 ++ l2) k =
      match alGet l1 k with
      | some v => some v
      | none => alGet l2 k := by
  induction l1 with
  | nil => simp [alGet]
  | cons p rest ih =>
    by_cases h : p.1 == k
    · simp [alGet, List.find?, h]
    · simpa [alGet, List.find?, h] using ih

theorem alGet_cons {β : Type} (p : String × β) (rest : List (String × β)) (k : String) :
    alGet (p :: rest) k = if p.1 = k then some p.2 else alGet rest k := by
  rcases eq_or_ne p.1 k with h | h
  · simp [alGet, List.find?, show (p.1 == k) = true from by simpa [beq_iff_eq] using h, h]
  · simp [alGet, List.find?,
      show (p.1 == k) = false from by simpa [beq_eq_false_iff_ne] using h, h]

theorem alGet_alUpd {β : Type} (l : List (String × β)) (k k2 : String) (f : β → β) :
    alGet (alUpd l k f) k2 =
      if k2 = k then (alGet l k).map f else alGet l k2 := by
  induction l with
  | nil => simp [alGet, alUpd]
  | cons p rest ih =>
    rcases eq_or_ne p.1 k with hp | hp
    · have hupd : alUpd (p :: rest) k f = (p.1, f p.2) :: rest := by
        simp [alUpd, show (p.1 == k) = true from by simpa [beq_iff_eq] using hp]
      rcases eq_or_ne k2 k with h2 | h2
      · subst h2
        rw [hupd, alGet_cons, if_pos hp, if_pos rfl, alGet_cons, if_pos hp]
        rfl
      · have hpk2 : p.1 ≠ k2 := by rw [hp]; exact fun h => h2 h.symm
        rw [hupd, alGet_cons, if_neg hpk2, if_neg h2, alGet_cons, if_neg hpk2]
    · have hupd : alUpd (p :: rest) k f = p :: alUpd rest k f := by
        simp [alUpd, show (p.1 == k) = false from by simpa [beq_eq_false_iff_ne] using hp]
      rcases eq_or_ne p.1 k2 with h2 | h2
      · have h2k : k2 ≠ k := by rw [← h2]; exact hp
        rw [hupd, alGet_cons, if_pos h2, if_neg h2k, alGet_cons, if_pos h2]
      · rw [hupd, alGet_cons, if_neg h2, ih, alGet_cons p rest k, if_neg hp,
          alGet_cons p rest k2, if_neg h2]

/-- The running state of the `packTableInf` loop: the nested `tbls` object
and the seen-id set (in insertion order). -/
structure TblState where
  tbls : List (String × List (String × TblGroup))
  ids : List String
deriving DecidableEq

/-- One iteration of the `packTableInf` loop: create the organization and
series groups when absent, then push the `[id, title]` row unless the id
was already seen. -/
def packTableStep (st : TblState) (tbl : TableInf) : TblState :=
  let org := tbl.GOV_ORG.text
  let sname := tbl.STATISTICS_NAME
  let tbls1 := if (alGet st.tbls org).isSome then st.tbls else st.tbls ++ [(org, [])]
  let tbls2 :=
    if ((alGet tbls1 org).bind (fun m => alGet m sname)).isSome then tbls1
    else alUpd tbls1 org (fun m => m ++ [(sname, ⟨["statsDataId", "title"], []⟩)])
  if st.ids.contains tbl.id then ⟨tbls2, st.ids⟩
  else
    ⟨alUpd tbls2 org (fun m =>
        alUpd m sname (fun g => ⟨g.c, g.r ++ [[tbl.id, getStringValue tbl.TITLE]]⟩)),
      st.ids ++ [tbl.id]⟩

/-- Embeds `packTableInf` from the source. -/
def packTableInf (tableInf : OneOrMany TableInf) : TablePacked :=
  ⟨((toArray tableInf).foldl packTableStep ⟨[], []⟩).tbls⟩

/-- The `(organization, series)` group exists in the nested `tbls` object. -/
def pairPresent (tbls : List (String × List (String × TblGroup))) (org sname : String) :
    Prop :=
  ((alGet tbls org).bind (fun m => alGet m sname)).isSome = true

theorem pairPresent_append (tbls : List (String × List (String × TblGroup)))
    (org sname k : String) (v : List (String × TblGroup))
    (h : pairPresent tbls org sname) : pairPresent (tbls ++ [(k, v)]) org sname := by
  unfold pairPresent at h ⊢
  rw [alGet_append]
  cases ho : alGet tbls org with
  | none => rw [ho] at h; simp at h
  | some m => rw [ho] at h; simpa using h

theorem pairPresent_alUpd (tbls : List (String × List (String × TblGroup)))
    (org sname k : String) (f : List (String × TblGroup) → List (String × TblGroup))
    (hf : ∀ m, (alGet m sname).isSome = true → (alGet (f m) sname).isSome = true)
    (h : pairPresent tbls org sname) : pairPresent (alUpd tbls k f) org sname := by
  unfold pairPresent at h ⊢
  rw [alGet_alUpd]
  rcases eq_or_ne org k with he | he
  · rw [if_pos he]
    subst he
    cases ho : alGet tbls org with
    | none => rw [ho] at h; simp at h
    | some m =>
      rw [ho] at h
      simp only [Option.some_bind] at h
      simpa using hf m h
  · rw [if_neg he]
    exact h

theorem isSome_alGet_append_self {β : Type} (l : List (String × β)) (k : String) (v : β) :
    (alGet (l ++ [(k, v)]) k).isSome = true := by
  rw [alGet_append]
  cases ho : alGet l k with
  | none => simp [alGet, List.find?]
  | some m => simp

theorem isSome_alGet_append_snd {β : Type} (l : List (String × β)) (k k2 : String) (v : β)
    (h : (alGet l k2).isSome = true) : (alGet (l ++ [(k, v)]) k2).isSome = true := by
  rw [alGet_append]
  cases ho : alGet l k2 with
  | none => rw [ho] at h; simp at h
  | some m => simp

theorem contains_append_one (l : List String) (a : String) :
    (l ++ [a]).contains a = true := by
  simp

theorem contains_append_keep (l : List String) (a b : String)
    (h : l.contains a = true) : (l ++ [b]).contains a = true := by
  simp at h ⊢
  exact Or.inl h

/-- The entry `t` has already been fully absorbed into the state: its id is
in the seen-id set and its organization/series group exists. -/
def tblAbsorbed (st : TblState) (t : TableInf) : Prop :=
  st.ids.contains t.id = true ∧ pairPresent st.tbls t.GOV_ORG.text t.STATISTICS_NAME

/-- Processing an entry already absorbed by the state leaves the state
unchanged: the nested groups already exist, and the duplicate id suppresses
the row push. -/
theorem packTableStep_absorbed (st : TblState) (t : TableInf) (h : tblAbsorbed st t) :
    packTableStep st t = st := by
  obtain ⟨hid, hgrp⟩ := h
  have houter : (alGet st.tbls t.GOV_ORG.text).isSome = true := by
    unfold pairPresent at hgrp
    cases ho : alGet st.tbls t.GOV_ORG.text with
    | none => rw [ho] at hgrp; simp at hgrp
    | some m => rfl
  unfold pairPresent at hgrp
  simp only [packTableStep, houter, if_true, hgrp, hid]

/-- After processing an entry, that entry is absorbed by the state. -/
theorem tblAbsorbed_after (st : TblState) (t : TableInf) :
    tblAbsorbed (packTableStep st t) t := by
  set org := t.GOV_ORG.text with horg
  set sname := t.STATISTICS_NAME with hsname
  set tbls1 := if (alGet st.tbls org).isSome then st.tbls else st.tbls ++ [(org, [])]
    with htbls1
  have hA : (alGet tbls1 org).isSome = true := by
    rw [htbls1]
    cases hc : (alGet st.tbls org).isSome with
    | true => simpa using hc
    | false =>
      simp only [Bool.false_eq_true, if_false]
      exact isSome_alGet_append_self _ _ _
  set tbls2 :=
    if ((alGet tbls1 org).bind (fun m => alGet m sname)).isSome then tbls1
    else alUpd tbls1 org (fun m => m ++ [(sname, ⟨["statsDataId", "title"], []⟩)])
    with htbls2
  have hB : pairPresent tbls2 org sname := by
    rw [htbls2]
    cases hc : ((alGet tbls1 org).bind (fun m => alGet m sname)).isSome with
    | true => simpa [pairPresent] using hc
    | false =>
      simp only [Bool.false_eq_true, if_false]
      unfold pairPresent
      rw [alGet_alUpd, if_pos rfl]
      cases ho : alGet tbls1 org with
      | none => rw [ho] at hA; simp at hA
      | some m =>
        simp only [Option.map_some', Option.some_bind]
        exact isSome_alGet_append_self _ _ _
  have hstep : packTableStep st t =
      if st.ids.contains t.id then ⟨tbls2, st.ids⟩
      else
        ⟨alUpd tbls2 org (fun m =>
            alUpd m sname (fun g => ⟨g.c, g.r ++ [[t.id, getStringValue t.TITLE]]⟩)),
          st.ids ++ [t.id]⟩ := by
    rw [packTableStep]
  rw [hstep]
  cases hc : st.ids.contains t.id with
  | true =>
    simp only [if_true]
    exact ⟨hc, hB⟩
  | false =>
    simp only [Bool.false_eq_true, if_false]
    constructor
    · exact contains_append_one _ _
    · refine pairPresent_alUpd _ _ _ _ _ (fun m hm => ?_) hB
      rw [alGet_alUpd, if_pos rfl]
      cases hmo : alGet m sname with
      | none => rw [hmo] at hm; simp at hm
      | some g => simp

/-- Absorption is stable under processing further entries: ids are never
removed and groups are never deleted. -/
theorem tblAbsorbed_mono (st : TblState) (t t' : TableInf) (h : tblAbsorbed st t) :
    tblAbsorbed (packTableStep st t') t := by
  obtain ⟨hid, hgrp⟩ := h
  set org := t'.GOV_ORG.text
  set sname := t'.STATISTICS_NAME
  set tbls1 := if (alGet st.tbls org).isSome then st.tbls else st.tbls ++ [(org, [])]
    with htbls1
  have h1 : pairPresent tbls1 t.GOV_ORG.text t.STATISTICS_NAME := by
    rw [htbls1]
    cases hc : (alGet st.tbls org).isSome with
    | true => simpa using hgrp
    | false =>
      simp only [Bool.false_eq_true, if_false]
      exact pairPresent_append _ _ _ _ _ hgrp
  set tbls2 :=
    if ((alGet tbls1 org).bind (fun m => alGet m sname)).isSome then tbls1
    else alUpd tbls1 org (fun m => m ++ [(sname, ⟨["statsDataId", "title"], []⟩)])
    with htbls2
  have h2 : pairPresent tbls2 t.GOV_ORG.text t.STATISTICS_NAME := by
    rw [htbls2]
    cases hc : ((alGet tbls1 org).bind (fun m => alGet m sname)).isSome with
    | true => simpa using h1
    | false =>
      simp only [Bool.false_eq_true, if_false]
      refine pairPresent_alUpd _ _ _ _ _ (fun m hm => ?_) h1
      exact isSome_alGet_append_snd _ _ _ _ hm
  have hstep : packTableStep st t' =
      if st.ids.contains t'.id then ⟨tbls2, st.ids⟩
      else
        ⟨alUpd tbls2 org (fun m =>
            alUpd m sname (fun g => ⟨g.c, g.r ++ [[t'.id, getStringValue t'.TITLE]]⟩)),
          st.ids ++ [t'.id]⟩ := by
    rw [packTableStep]
  rw [hstep]
  cases hc : st.ids.contains t'.id with
  | true => exact ⟨hid, h2⟩
  | false =>
    simp only [Bool.false_eq_true, if_false]
    constructor
    · exact contains_append_keep _ _ _ hid
    · refine pairPresent_alUpd _ _ _ _ _ (fun m hm => ?_) h2
      rw [alGet_alUpd]
      rcases eq_or_ne t.STATISTICS_NAME sname with he | he
      · rw [if_pos he]
        cases hmo : alGet m sname with
        | none => rw [he, hmo] at hm; simp at hm
        | some g => simp
      · rw [if_neg he]
        exact hm

theorem dedupFirst_nil {α : Type} [DecidableEq α] : dedupFirst ([] : List α) = [] := rfl

theorem contains_eq_of_mem_iff {α : Type} [DecidableEq α] (s1 s2 : List α) (a : α)
    (h : ∀ x, x ∈ s1 ↔ x ∈ s2) : s1.contains a = s2.contains a := by
  by_cases hm : a ∈ s1
  · have hm2 := (h a).mp hm
    simp [hm, hm2]
  · have hm2 : a ∉ s2 := fun hx => hm ((h a).mpr hx)
    simp [hm, hm2]

theorem dedupFirstAux_congr {α : Type} [DecidableEq α] (l : List α) :
    ∀ seen1 seen2, (∀ x, x ∈ seen1 ↔ x ∈ seen2) →
      dedupFirstAux seen1 l = dedupFirstAux seen2 l := by
  induction l with
  | nil => intro s1 s2 _; rfl
  | cons a l ih =>
    intro s1 s2 h
    have hc : s1.contains a = s2.contains a := contains_eq_of_mem_iff s1 s2 a h
    cases hc2 : s2.contains a with
    | true =>
      simp only [dedupFirstAux, hc, hc2, if_true]
      exact ih s1 s2 h
    | false =>
      simp only [dedupFirstAux, hc, hc2, Bool.false_eq_true, if_false]
      rw [ih (s1 ++ [a]) (s2 ++ [a]) (fun x => by simp [h x])]

theorem dedupFirstAux_seen_filter {α : Type} [DecidableEq α] (l : List α) :
    ∀ (seen : List α) (b : α),
      dedupFirstAux (seen ++ [b]) l = dedupFirstAux seen (l.filter (fun x => !(x == b))) := by
  induction l with
  | nil => intro seen b; rfl
  | cons a l ih =>
    intro seen b
    by_cases hab : a = b
    · subst hab
      have hc : (seen ++ [a]).contains a = true := by simp
      have hfil : (a :: l).filter (fun x => !(x == a)) = l.filter (fun x => !(x == a)) := by
        simp [List.filter_cons]
      rw [hfil, ← ih seen a]
      simp only [dedupFirstAux, hc, if_true]
    · have hfb : (!(a == b)) = true := by simpa [beq_eq_false_iff_ne] using hab
      have hfil : (a :: l).filter (fun x => !(x == b)) = a :: l.filter (fun x => !(x == b)) := by
        simp [List.filter_cons, hfb]
      rw [hfil]
      by_cases hs : a ∈ seen
      · have hc1 : (seen ++ [b]).contains a = true := by simp [hs]
        have hc2 : seen.contains a = true := by simp [hs]
        simp only [dedupFirstAux, hc1, hc2, if_true]
        exact ih seen b
      · have hc1 : (seen ++ [b]).contains a = false := by
          simp [hs, hab]
        have hc2 : seen.contains a = false := by simp [hs]
        simp only [dedupFirstAux, hc1, hc2, Bool.false_eq_true, if_false]
        congr 1
        rw [dedupFirstAux_congr l ((seen ++ [b]) ++ [a]) ((seen ++ [a]) ++ [b])
          (fun x => by simp; tauto)]
        exact ih (seen ++ [a]) b

theorem dedupFirst_cons {α : Type} [DecidableEq α] (a : α) (l : List α) :
    dedupFirst (a :: l) = a :: dedupFirst (l.filter (fun x => !(x == a))) := by
  show dedupFirstAux [] (a :: l) = a :: dedupFirstAux [] (l.filter (fun x => !(x == a)))
  have hc : ([] : List α).contains a = false := rfl
  simp only [dedupFirstAux, hc, Bool.false_eq_true, if_false]
  rw [dedupFirstAux_seen_filter l [] a]

theorem dedupFirstAux_append_one {α : Type} [DecidableEq α] (l : List α) :
    ∀ (seen : List α) (a : α),
      dedupFirstAux seen (l ++ [a]) =
        dedupFirstAux seen l ++ (if a ∈ seen ∨ a ∈ l then [] else [a]) := by
  induction l with
  | nil =>
    intro seen a
    by_cases hc : a ∈ seen
    · have hcb : seen.contains a = true := by simp [hc]
      simp [dedupFirstAux, hcb, hc]
    · have hcb : seen.contains a = false := by simp [hc]
      simp [dedupFirstAux, hcb, hc]
  | cons b l ih =>
    intro seen a
    by_cases hcb : b ∈ seen
    · have hcbb : seen.contains b = true := by simp [hcb]
      have hg : (a ∈ seen ∨ a ∈ b :: l) ↔ (a ∈ seen ∨ a ∈ l) := by
        simp only [List.mem_cons]
        constructor
        · rintro (h | h | h)
          · exact Or.inl h
          · exact Or.inl (h ▸ hcb)
          · exact Or.inr h
        · rintro (h | h)
          · exact Or.inl h
          · exact Or.inr (Or.inr h)
      rw [List.cons_append]
      simp only [dedupFirstAux, hcbb, if_true]
      rw [ih seen a, if_congr hg rfl rfl]
    · have hcbb : seen.contains b = false := by simp [hcb]
      have hg : (a ∈ seen ++ [b] ∨ a ∈ l) ↔ (a ∈ seen ∨ a ∈ b :: l) := by
        simp [List.mem_append, List.mem_cons]
        tauto
      rw [List.cons_append]
      simp only [dedupFirstAux, hcbb, Bool.false_eq_true, if_false]
      rw [ih (seen ++ [b]) a, if_congr hg rfl rfl, List.cons_append]

theorem dedupFirst_append_one {α : Type} [DecidableEq α] (l : List α) (a : α) :
    dedupFirst (l ++ [a]) = dedupFirst l ++ (if a ∈ l then [] else [a]) := by
  show dedupFirstAux [] (l ++ [a]) = _
  rw [dedupFirstAux_append_one l [] a]
  congr 1
  simp

theorem mem_dedupFirstAux {α : Type} [DecidableEq α] (l : List α) :
    ∀ (seen : List α) (x : α), x ∈ dedupFirstAux seen l ↔ x ∈ l ∧ x ∉ seen := by
  induction l with
  | nil => intro seen x; simp [dedupFirstAux]
  | cons a l ih =>
    intro seen x
    by_cases hc : a ∈ seen
    · have hcb : seen.contains a = true := by simp [hc]
      simp only [dedupFirstAux, hcb, if_true, ih, List.mem_cons]
      constructor
      · rintro ⟨h1, h2⟩
        exact ⟨Or.inr h1, h2⟩
      · rintro ⟨h1 | h1, h2⟩
        · exact absurd (h1 ▸ hc) h2
        · exact ⟨h1, h2⟩
    · have hcb : seen.contains a = false := by simp [hc]
      simp only [dedupFirstAux, hcb, Bool.false_eq_true, if_false, List.mem_cons, ih,
        List.mem_append, List.mem_singleton]
      constructor
      · rintro (h | ⟨h1, h2⟩)
        · subst h
          exact ⟨Or.inl rfl, hc⟩
        · refine ⟨Or.inr h1, fun hx => h2 (Or.inl hx)⟩
      · rintro ⟨h1 | h1, h2⟩
        · exact Or.inl h1
        · by_cases hx : x = a
          · exact Or.inl hx
          · refine Or.inr ⟨h1, fun hm => ?_⟩
            rcases hm with hm | hm
            · exact h2 hm
            · simp at hm
              exact hx hm

theorem mem_dedupFirst {α : Type} [DecidableEq α] (l : List α) (x : α) :
    x ∈ dedupFirst l ↔ x ∈ l := by
  show x ∈ dedupFirstAux [] l ↔ x ∈ l
  rw [mem_dedupFirstAux]
  simp

theorem nodup_dedupFirstAux {α : Type} [DecidableEq α] (l : List α) :
    ∀ (seen : List α), (dedupFirstAux seen l).Nodup := by
  induction l with
  | nil => intro seen; exact List.nodup_nil
  | cons a l ih =>
    intro seen
    by_cases hc : a ∈ seen
    · have hcb : seen.contains a = true := by simp [hc]
      simp only [dedupFirstAux, hcb, if_true]
      exact ih seen
    · have hcb : seen.contains a = false := by simp [hc]
      simp only [dedupFirstAux, hcb, Bool.false_eq_true, if_false]
      refine List.Nodup.cons ?_ (ih (seen ++ [a]))
      intro hmem
      have := (mem_dedupFirstAux l (seen ++ [a]) a).mp hmem
      exact this.2 (by simp)

theorem nodup_dedupFirst {α : Type} [DecidableEq α] (l : List α) :
    (dedupFirst l).Nodup :=
  nodup_dedupFirstAux l []

/-- Entries equal to an already absorbed entry can be dropped from the rest
of the fold without changing the state it computes. -/
theorem foldl_filter_absorbed (l : List TableInf) :
    ∀ st t, tblAbsorbed st t →
      l.foldl packTableStep st = (l.filter (fun x => !(x == t))).foldl packTableStep st := by
  induction l with
  | nil => intro st t _; rfl
  | cons b l ih =>
    intro st t h
    by_cases hb : b = t
    · subst hb
      have hfil : (b :: l).filter (fun x => !(x == b)) = l.filter (fun x => !(x == b)) := by
        simp [List.filter_cons]
      rw [hfil, List.foldl_cons, packTableStep_absorbed st b h, ih st b h]
    · have hbb : (b == t) = false := by simpa [beq_eq_false_iff_ne] using hb
      have hfil : (b :: l).filter (fun x => !(x == t)) = b :: l.filter (fun x => !(x == t)) := by
        simp [List.filter_cons, hbb]
      rw [hfil, List.foldl_cons, List.foldl_cons]
      exact ih (packTableStep st b) t (tblAbsorbed_mono st t b h)

theorem foldl_dedupFirst_eq :
    ∀ (n : Nat) (l : List TableInf), l.length ≤ n → ∀ st : TblState,
      l.foldl packTableStep st = (dedupFirst l).foldl packTableStep st := by
  intro n
  induction n with
  | zero =>
    intro l hl st
    have hnil : l = [] := List.length_eq_zero.mp (Nat.le_zero.mp hl)
    subst hnil
    rw [dedupFirst_nil]
  | succ n ih =>
    intro l hl st
    match l with
    | [] => rw [dedupFirst_nil]
    | a :: l2 =>
      rw [dedupFirst_cons, List.foldl_cons, List.foldl_cons,
        foldl_filter_absorbed l2 (packTableStep st a) a (tblAbsorbed_after st a)]
      exact ih (l2.filter (fun x => !(x == a)))
        (le_trans (List.length_filter_le _ _)
          (Nat.succ_le_succ_iff.mp (by simpa using hl))) _

/-- C7: `packTableInf` deduplicates by identity id with the first occurrence
winning: packing a list that contains exact duplicate entries (identical id,
title, organization and series name) yields the same output as packing the
list with those later duplicates removed.  The nested group structure is
created before the seen-id check, but an exact duplicate's organization and
series group already exists, so duplicate entries change nothing. -/
theorem packTableInf_dedup_idempotent (l : List TableInf) :
    packTableInf (.many l) = packTableInf (.many (dedupFirst l)) := by
  simp only [packTableInf, toArray]
  rw [foldl_dedupFirst_eq l.length l (le_refl _)]

/-! Pivoted data packer (`packDataInf`) -/

/-- One value record of `DATA_INF.VALUE`.  The `@`-prefixed dimension
attributes (`@tab`, `@cat01`, ..., `@area`, `@time`, `@unit` and the
annotation code) are modelled as an insertion-ordered association list
keyed by the attribute name without its `@` prefix; `VAL` models the `$`
field. -/
structure Value where
  attrs : List (String × String)
  VAL : JsScalar
deriving DecidableEq

/-- Reads the attribute `row["@" ++ k]`. -/
def Value.attr (r : Value) (k : String) : Option String :=
  alGet r.attrs k

/-- A `NOTE` entry (`@char` and `$`). -/
structure Note where
  char : String
  text : String
deriving DecidableEq

/-- An `ANNOTATION` dictionary entry (the annotation code and `$`). -/
structure AnnEntry where
  code : String
  text : String
deriving DecidableEq

/-- `DATA_INF`: optional note and annotation-dictionary lists (the `ANN`
field models the source `ANNOTATION` list) and the value records; the TS
optional arrays are modelled as plain lists with `[]` meaning absent. -/
structure DataInf where
  NOTE : List Note := []
  ANN : List AnnEntry := []
  VALUE : OneOrMany Value
deriving DecidableEq

/-- One pivoted value-column definition. -/
structure ValueColDef where
  code : String
  label : String
  unit : Option String := none
deriving DecidableEq

/-- The packed output of `packDataInf`.  Optional JS fields are modelled as
`Option` (`none` when the source omits the key from the object). -/
structure DataPacked where
  pivotDim : Option String
  valueCols : List ValueColDef
  fixed : Option (List (String × String))
  dims : List String
  rows : List (List Cell)
  na : Option (List (String × String))
  annDict : Option (List (String × String))
  annRows : Option (List (Nat × Nat × String))
deriving DecidableEq

/-- The pivot axis id (`pivotId` in the source). -/
def pivotIdOf (classInf : ClassInf) : Option String :=
  (detectPivotDim classInf).map (fun p => p.2)

/-- The codes of the pivot axis classes (`pivotCodes`); empty when there is
no pivot axis. -/
def pivotCodesOf (classInf : ClassInf) : List String :=
  match detectPivotDim classInf with
  | some p => (toArray p.1.CLASS).map (fun c => c.code)
  | none => []

/-- The value-column definitions (`valueCols`): one per pivot code in
declared order, or the single implicit column when there is no pivot. -/
def valueColsOf (classInf : ClassInf) : List ValueColDef :=
  match detectPivotDim classInf with
  | some p =>
    (toArray p.1.CLASS).map (fun c => { code := c.code, label := c.name, unit := c.unit })
  | none => [{ code := "_", label := "value" }]

/-- Index of the last occurrence of a code in the code list; models the JS
`Map` built from `pivotCodes.map((code, i) => [code, i])`, in which a later
pair overwrites an earlier one with an equal code. -/
def lastIdxOf : List String → String → Option Nat
  | [], _ => none
  | c0 :: rest, c =>
    match lastIdxOf rest c with
    | some j => some (j + 1)
    | none => if c0 == c then some 0 else none

/-- The candidate row dimensions (step 2 of the source): the keys of the
fixed vocabulary, minus the pivot axis and the literal `unit` key, that
occur with a non-null value on at least one record, in vocabulary order. -/
def candidateDimsOf (records : List Value) (pid : Option String) : List String :=
  ALL_DIM_KEYS.filter (fun k =>
    !(pid == some k || k == "unit") && records.any (fun r => (r.attr k).isSome))

/-- The distinct values a dimension takes across the records, in first-seen
order (`uniqueValuesPerDim`, a JS `Set` filled in scan order). -/
def uniqueValsOf (records : List Value) (dim : String) : List String :=
  dedupFirst (records.filterMap (fun r => r.attr dim))

/-- The `fixed` mapping (step 3): candidate dimensions with exactly one
distinct value, mapped to that value. -/
def fixedOf (records : List Value) (pid : Option String) : List (String × String) :=
  (candidateDimsOf records pid).filterMap (fun dim =>
    match uniqueValsOf records dim with
    | [v] => some (dim, v)
    | _ => none)

/-- The surviving row dimensions `dims` (step 3): candidate dimensions
whose number of distinct values is not one. -/
def dimsOf (records : List Value) (pid : Option String) : List String :=
  (candidateDimsOf records pid).filter (fun dim =>
    !((uniqueValsOf records dim).length == 1))

/-- `dimValues.join("\x00")`; JS `Array.join` renders `null` as the empty
string. -/
def joinKey (l : List (Option String)) : String :=
  String.intercalate "\x00" (l.map (fun o => o.getD ""))

/-- The dimension-value tuple of a record over the surviving dims. -/
def dimValuesOf (dims : List String) (r : Value) : List (Option String) :=
  dims.map (fun d => r.attr d)

/-- The group key of a record: its dim tuple joined with the separator. -/
def groupKeyOf (dims : List String) (r : Value) : String :=
  joinKey (dimValuesOf dims r)

/-- The target value-column index of a record: with a pivot axis, the
record's pivot code looked up in the code-to-index map (`none` when the
code is missing or unknown, in which case the record's contribution is
dropped); without a pivot axis, column 0. -/
def colIdxOf (pid : Option String) (pcodes : List String) (r : Value) : Option Nat :=
  match pid with
  | some p =>
    match r.attr p with
    | none => none
    | some code => lastIdxOf pcodes code
  | none => some 0

/-- The annotation code carried by a record, when present and truthy (the
source guard `if (row["@annotation"])` is false for the empty string). -/
def annOf (r : Value) : Option String :=
  match r.attr "annotation" with
  | some a => if a = "" then none else some a
  | none => none

/-- The per-group state built by the grouping pass (step 4). -/
structure GroupState where
  dimValues : List (Option String)
  values : List Cell
  anns : List (Nat × String)
deriving DecidableEq

/-- One iteration of the grouping loop of `packDataInf` (step 4): allocate
the group on first sight of its key, resolve the value column (dropping the
record's value when the pivot code is missing or unknown), write the
normalized value (overwriting any previous one) and append the annotation
code. -/
def groupStep (dims : List String) (pid : Option String) (pcodes : List String)
    (nCols : Nat) (st : List (String × GroupState)) (r : Value) :
    List (String × GroupState) :=
  let dimValues := dimValuesOf dims r
  let key := joinKey dimValues
  let st1 :=
    if (alGet st key).isSome then st
    else st ++ [(key, ⟨dimValues, List.replicate nCols Cell.null, []⟩)]
  match colIdxOf pid pcodes r with
  | none => st1
  | some cix =>
    alUpd st1 key (fun g =>
      ⟨g.dimValues, g.values.set cix (normalizeValue r.VAL),
        g.anns ++ (match annOf r with | some a => [(cix, a)] | none => [])⟩)

/-- The grouping pass over all records (the JS `Map` keeps insertion
order). -/
def buildGroups (dims : List String) (pid : Option String) (pcodes : List String)
    (nCols : Nat) (records : List Value) : List (String × GroupState) :=
  records.foldl (groupStep dims pid pcodes nCols) []

/-- Models `Object.fromEntries`: a later pair overwrites the value of an
earlier equal key, which keeps its original position. -/
def fromEntries (l : List (String × String)) : List (String × String) :=
  l.foldl (fun acc kv =>
    if (alGet acc kv.1).isSome then alUpd acc kv.1 (fun _ => kv.2)
    else acc ++ [kv]) []

/-- A dim-tuple entry rendered as a row cell (`string | null`). -/
def dimCell (o : Option String) : Cell :=
  match o with
  | some s => .str s
  | none => .null

/-- Embeds `packDataInf` from the source (steps 1 to 6). -/
def packDataInf (dataInf : DataInf) (classInf : ClassInf) : DataPacked :=
  let records := toArray dataInf.VALUE
  let pid := pivotIdOf classInf
  let pcodes := pivotCodesOf classInf
  let vcols := valueColsOf classInf
  let dims := dimsOf records pid
  let fixed := fixedOf records pid
  let G := buildGroups dims pid pcodes vcols.length records
  let rows := G.map (fun p => p.2.dimValues.map dimCell ++ p.2.values)
  let annRows := G.enum.flatMap (fun ip => ip.2.2.anns.map (fun ca => (ip.1, ca.1, ca.2)))
  let na :=
    if dataInf.NOTE.isEmpty then none
    else some (fromEntries (dataInf.NOTE.map (fun n => (n.char, n.text))))
  let annDict :=
    if dataInf.ANN.isEmpty then none
    else some (fromEntries (dataInf.ANN.map (fun a => (a.code, a.text))))
  { pivotDim := pid
    valueCols := vcols
    fixed := if fixed.isEmpty then none else some fixed
    dims := dims
    rows := rows
    na := na
    annDict := annDict
    annRows := if annRows.isEmpty then none else some annRows }

/-- Classification tree for the C2 counterexample: `tab` is the pivot axis
with the single unit-bearing code `X`. -/
def classInfC2 : ClassInf :=
  ⟨[{ id := "tab", name := "Table",
      CLASS := .one { code := "X", name := "amount", unit := some "yen" } }]⟩

/-- Data for the C2 counterexample: a single record carrying no `@tab`
attribute, so its pivot code is missing. -/
def dataInfC2 : DataInf :=
  { VALUE := .one { attrs := [("cat01", "a")], VAL := .str "5" } }

/-- C2 counterexample: a record whose pivot code is missing contributes no
value and no annotation, but its dims-tuple still allocates a row slot: the
group-map entry is created before the pivot-code check, so the output holds
one all-null row, not zero rows as the claim states. -/
theorem packDataInf_missing_pivot_code_still_creates_row :
    colIdxOf (pivotIdOf classInfC2) (pivotCodesOf classInfC2)
        { attrs := [("cat01", "a")], VAL := .str "5" } = none ∧
    (packDataInf dataInfC2 classInfC2).rows = [[Cell.null]] :=
  ⟨by decide, by decide⟩

/-- C2 amended: a value record whose pivot code is missing or unknown
(so that column resolution yields `none`) writes no value, records no
annotation and raises no error; but when its dims-tuple key is new, an
all-null row slot is still allocated for that tuple before the record is
dropped, because the group map entry is created before the pivot-code
check. -/
theorem groupStep_dropped_record (dims : List String) (pid : Option String)
    (pcodes : List String) (nCols : Nat) (st : List (String × GroupState)) (r : Value)
    (h : colIdxOf pid pcodes r = none) :
    groupStep dims pid pcodes nCols st r =
      if (alGet st (groupKeyOf dims r)).isSome then st
      else st ++ [(groupKeyOf dims r,
        ⟨dimValuesOf dims r, List.replicate nCols Cell.null, []⟩)] := by
  simp only [groupStep, h]
  rfl

theorem groupStep_dropped_record_witness :
    colIdxOf (some "tab") ["X"] { attrs := [("cat01", "a")], VAL := .str "5" } = none ∧
    groupStep [] (some "tab") ["X"] 1 [] { attrs := [("cat01", "a")], VAL := .str "5" } =
      [("", ⟨[], [Cell.null], []⟩)] := by
  refine ⟨by decide, ?_⟩
  rw [groupStep_dropped_record [] (some "tab") ["X"] 1 []
    { attrs := [("cat01", "a")], VAL := .str "5" } (by decide)]
  decide

theorem mem_alUpd {β : Type} (l : List (String × β)) (k : String) (f : β → β) :
    ∀ p ∈ alUpd l k f, p ∈ l ∨ ∃ q, q ∈ l ∧ p = (q.1, f q.2) := by
  induction l with
  | nil => intro p hp; simp [alUpd] at hp
  | cons q rest ih =>
    intro p hp
    unfold alUpd at hp
    by_cases hq : (q.1 == k) = true
    · rw [if_pos hq] at hp
      rcases List.mem_cons.mp hp with h | h
      · exact Or.inr ⟨q, List.mem_cons_self _ _, h⟩
      · exact Or.inl (List.mem_cons_of_mem _ h)
    · rw [if_neg hq] at hp
      rcases List.mem_cons.mp hp with h | h
      · exact Or.inl (h ▸ List.mem_cons_self _ _)
      · rcases ih p h with h2 | ⟨q2, hq2, hpe⟩
        · exact Or.inl (List.mem_cons_of_mem _ h2)
        · exact Or.inr ⟨q2, List.mem_cons_of_mem _ hq2, hpe⟩

/-- Shape invariant of one grouping step: dim tuples keep one entry per
surviving dimension and value arrays keep one slot per value column. -/
theorem groupStep_shape (dims : List String) (pid : Option String) (pcodes : List String)
    (nCols : Nat) (st : List (String × GroupState)) (r : Value)
    (hst : ∀ p ∈ st, p.2.dimValues.length = dims.length ∧ p.2.values.length = nCols) :
    ∀ p ∈ groupStep dims pid pcodes nCols st r,
      p.2.dimValues.length = dims.length ∧ p.2.values.length = nCols := by
  have hst1 : ∀ p ∈ (if (alGet st (joinKey (dimValuesOf dims r))).isSome then st
      else st ++ [(joinKey (dimValuesOf dims r),
        ⟨dimValuesOf dims r, List.replicate nCols Cell.null, []⟩)]),
      p.2.dimValues.length = dims.length ∧ p.2.values.length = nCols := by
    intro p hp
    split at hp
    · exact hst p hp
    · rcases List.mem_append.mp hp with h | h
      · exact hst p h
      · simp only [List.mem_singleton] at h
        subst h
        refine ⟨?_, ?_⟩ <;> simp [dimValuesOf]
  intro p hp
  simp only [groupStep] at hp
  cases hcol : colIdxOf pid pcodes r with
  | none =>
    rw [hcol] at hp
    exact hst1 p hp
  | some cix =>
    rw [hcol] at hp
    rcases mem_alUpd _ _ _ p hp with h | ⟨q, hq, hpe⟩
    · exact hst1 p h
    · subst hpe
      obtain ⟨h1, h2⟩ := hst1 q hq
      exact ⟨h1, by simpa using h2⟩

theorem buildGroups_shape (dims : List String) (pid : Option String) (pcodes : List String)
    (nCols : Nat) (records : List Value) :
    ∀ p ∈ buildGroups dims pid pcodes nCols records,
      p.2.dimValues.length = dims.length ∧ p.2.values.length = nCols := by
  suffices h : ∀ (l : List Value) (st : List (String × GroupState)),
      (∀ p ∈ st, p.2.dimValues.length = dims.length ∧ p.2.values.length = nCols) →
      ∀ p ∈ l.foldl (groupStep dims pid pcodes nCols) st,
        p.2.dimValues.length = dims.length ∧ p.2.values.length = nCols by
    exact h records [] (by intro p hp; simp at hp)
  intro l
  induction l with
  | nil => intro st hst p hp; exact hst p hp
  | cons r l ih =>
    intro st hst p hp
    exact ih _ (groupStep_shape dims pid pcodes nCols st r hst) p hp

/-- Projection lemmas for `packDataInf` in terms of the stage functions. -/
theorem packDataInf_pivotDim (dataInf : DataInf) (classInf : ClassInf) :
    (packDataInf dataInf classInf).pivotDim = pivotIdOf classInf := rfl

theorem packDataInf_valueCols (dataInf : DataInf) (classInf : ClassInf) :
    (packDataInf dataInf classInf).valueCols = valueColsOf classInf := rfl

theorem packDataInf_dims (dataInf : DataInf) (classInf : ClassInf) :
    (packDataInf dataInf classInf).dims =
      dimsOf (toArray dataInf.VALUE) (pivotIdOf classInf) := rfl

theorem packDataInf_rows (dataInf : DataInf) (classInf : ClassInf) :
    (packDataInf dataInf classInf).rows =
      (buildGroups (dimsOf (toArray dataInf.VALUE) (pivotIdOf classInf))
          (pivotIdOf classInf) (pivotCodesOf classInf) (valueColsOf classInf).length
          (toArray dataInf.VALUE)).map
        (fun p => p.2.dimValues.map dimCell ++ p.2.values) := rfl

theorem packDataInf_annRows (dataInf : DataInf) (classInf : ClassInf) :
    (packDataInf dataInf classInf).annRows =
      (let annRows :=
        ((buildGroups (dimsOf (toArray dataInf.VALUE) (pivotIdOf classInf))
            (pivotIdOf classInf) (pivotCodesOf classInf) (valueColsOf classInf).length
            (toArray dataInf.VALUE)).enum).flatMap
          (fun ip => ip.2.2.anns.map (fun ca => (ip.1, ca.1, ca.2)))
      if annRows.isEmpty then none else some annRows) := rfl

theorem packDataInf_fixed_getD (dataInf : DataInf) (classInf : ClassInf) :
    (packDataInf dataInf classInf).fixed.getD [] =
      fixedOf (toArray dataInf.VALUE) (pivotIdOf classInf) := by
  show (if (fixedOf (toArray dataInf.VALUE) (pivotIdOf classInf)).isEmpty then none
      else some (fixedOf (toArray dataInf.VALUE) (pivotIdOf classInf))).getD [] = _
  by_cases h : (fixedOf (toArray dataInf.VALUE) (pivotIdOf classInf)).isEmpty = true
  · rw [if_pos h]
    simp [List.isEmpty_iff.mp h]
  · rw [if_neg h]
    rfl

theorem detectPivotGo_eq_none (l : List ClassObj)
    (h : ∀ obj ∈ l, obj.id ∈ PIVOT_CANDIDATE_KEYS → ∀ c ∈ toArray obj.CLASS, c.unit = none) :
    detectPivotGo l = none := by
  induction l with
  | nil => rfl
  | cons obj rest ih =>
    have hrest := fun o ho => h o (List.mem_cons_of_mem _ ho)
    by_cases h1 : obj.id ∈ PIVOT_CANDIDATE_KEYS
    · have h2 : (toArray obj.CLASS).any (fun c => c.unit.isSome) = false := by
        simp only [List.any_eq_false]
        intro c hc
        simp [h obj (List.mem_cons_self _ _) h1 c hc]
      have h1b : PIVOT_CANDIDATE_KEYS.contains obj.id = true := by simp [h1]
      simp only [detectPivotGo, h1b, Bool.not_true, Bool.false_eq_true, if_false, h2]
      exact ih hrest
    · have h1b : PIVOT_CANDIDATE_KEYS.contains obj.id = false := by simp [h1]
      simp only [detectPivotGo, h1b, Bool.not_false, if_true]
      exact ih hrest

/-- C8: when the classification tree contains no unit-bearing code in any
pivot-candidate dimension, the packed output has no pivot axis, its value
columns are exactly the single implicit column `{code "_", label "value"}`,
every record resolves to value-column index 0 (so every record's normalized
value is written into that single column), and every output row has exactly
one value slot after its dim columns. -/
theorem packDataInf_no_pivot (dataInf : DataInf) (classInf : ClassInf)
    (h : ∀ obj ∈ classInf.CLASS_OBJ, obj.id ∈ PIVOT_CANDIDATE_KEYS →
        ∀ c ∈ toArray obj.CLASS, c.unit = none) :
    (packDataInf dataInf classInf).pivotDim = none ∧
    (packDataInf dataInf classInf).valueCols = [{ code := "_", label := "value" }] ∧
    (∀ r ∈ toArray dataInf.VALUE,
      colIdxOf (pivotIdOf classInf) (pivotCodesOf classInf) r = some 0) ∧
    (∀ row ∈ (packDataInf dataInf classInf).rows,
      row.length = (packDataInf dataInf classInf).dims.length + 1) := by
  have hnone : detectPivotDim classInf = none := detectPivotGo_eq_none _ h
  have hpid : pivotIdOf classInf = none := by simp [pivotIdOf, hnone]
  have hvcols : valueColsOf classInf = [{ code := "_", label := "value" }] := by
    simp [valueColsOf, hnone]
  refine ⟨?_, ?_, ?_, ?_⟩
  · rw [packDataInf_pivotDim, hpid]
  · rw [packDataInf_valueCols, hvcols]
  · intro r _
    rw [hpid]
    rfl
  · intro row hrow
    rw [packDataInf_rows] at hrow
    rcases List.mem_map.mp hrow with ⟨p, hp, hrow⟩
    obtain ⟨h1, h2⟩ := buildGroups_shape _ _ _ _ _ p hp
    rw [packDataInf_dims]
    subst hrow
    rw [List.length_append, List.length_map, h1, h2, hvcols]
    rfl

theorem packDataInf_no_pivot_witness :
    (∀ obj ∈ classInfC1.CLASS_OBJ, obj.id ∈ PIVOT_CANDIDATE_KEYS →
        ∀ c ∈ toArray obj.CLASS, c.unit = none) = False ∧
    (∀ obj ∈ (⟨[]⟩ : ClassInf).CLASS_OBJ, obj.id ∈ PIVOT_CANDIDATE_KEYS →
        ∀ c ∈ toArray obj.CLASS, c.unit = none) ∧
    ((packDataInf dataInfC2 ⟨[]⟩).pivotDim = none ∧
      (packDataInf dataInfC2 ⟨[]⟩).valueCols = [{ code := "_", label := "value" }] ∧
      (∀ r ∈ toArray dataInfC2.VALUE,
        colIdxOf (pivotIdOf ⟨[]⟩) (pivotCodesOf ⟨[]⟩) r = some 0) ∧
      (∀ row ∈ (packDataInf dataInfC2 ⟨[]⟩).rows,
        row.length = (packDataInf dataInfC2 ⟨[]⟩).dims.length + 1)) := by
  refine ⟨by simp [classInfC1, PIVOT_CANDIDATE_KEYS, toArray], by simp, ?_⟩
  exact packDataInf_no_pivot dataInfC2 ⟨[]⟩ (by simp)

theorem mem_candidateDimsOf (records : List Value) (pid : Option String) (k : String) :
    k ∈ candidateDimsOf records pid ↔
      k ∈ ALL_DIM_KEYS ∧ pid ≠ some k ∧ k ≠ "unit" ∧
        ∃ r ∈ records, (r.attr k).isSome = true := by
  unfold candidateDimsOf
  rw [List.mem_filter]
  simp only [Bool.and_eq_true, Bool.not_eq_true', Bool.or_eq_false_iff, beq_eq_false_iff_ne,
    List.any_eq_true, and_assoc]

theorem mem_uniqueValsOf (records : List Value) (dim : String) (w : String) :
    w ∈ uniqueValsOf records dim ↔ ∃ r ∈ records, r.attr dim = some w := by
  unfold uniqueValsOf
  rw [mem_dedupFirst, List.mem_filterMap]

theorem mem_fixedOf (records : List Value) (pid : Option String) (k v : String) :
    (k, v) ∈ fixedOf records pid ↔
      k ∈ candidateDimsOf records pid ∧ uniqueValsOf records k = [v] := by
  unfold fixedOf
  rw [List.mem_filterMap]
  constructor
  · rintro ⟨dim, hdim, hf⟩
    cases hu : uniqueValsOf records dim with
    | nil => rw [hu] at hf; simp at hf
    | cons w tail =>
      cases tail with
      | nil =>
        rw [hu] at hf
        simp only [Option.some_inj] at hf
        obtain ⟨hk, hv⟩ := Prod.mk.inj hf
        subst hk
        subst hv
        exact ⟨hdim, hu⟩
      | cons w2 tail2 => rw [hu] at hf; simp at hf
  · rintro ⟨hk, hu⟩
    exact ⟨k, hk, by rw [hu]⟩

theorem mem_dimsOf (records : List Value) (pid : Option String) (k : String) :
    k ∈ dimsOf records pid ↔
      k ∈ candidateDimsOf records pid ∧ (uniqueValsOf records k).length ≠ 1 := by
  unfold dimsOf
  rw [List.mem_filter]
  simp

/-- C3: every dimension key of the fixed vocabulary that is present on at
least one record and is neither the pivot axis nor the literal `unit` key
lands in exactly one of `fixed` and `dims`; a dimension in `fixed` takes
exactly one distinct value across the records — the value `fixed` maps it
to, carried by every record under the uniform-presence assumption stated by
the spec's data model — and a dimension in `dims` takes at least two
distinct values; the pivot axis and the `unit` key appear in neither. -/
theorem packDataInf_fixed_dims_partition (dataInf : DataInf) (classInf : ClassInf)
    (huniform : ∀ k ∈ ALL_DIM_KEYS,
      (∃ r ∈ toArray dataInf.VALUE, (r.attr k).isSome = true) →
      ∀ r ∈ toArray dataInf.VALUE, (r.attr k).isSome = true) :
    (∀ k ∈ ALL_DIM_KEYS,
      (∃ r ∈ toArray dataInf.VALUE, (r.attr k).isSome = true) →
      pivotIdOf classInf ≠ some k → k ≠ "unit" →
      (((∃ v, (k, v) ∈ (packDataInf dataInf classInf).fixed.getD []) ∨
          k ∈ (packDataInf dataInf classInf).dims) ∧
        ¬((∃ v, (k, v) ∈ (packDataInf dataInf classInf).fixed.getD []) ∧
          k ∈ (packDataInf dataInf classInf).dims))) ∧
    (∀ k v, (k, v) ∈ (packDataInf dataInf classInf).fixed.getD [] →
      uniqueValsOf (toArray dataInf.VALUE) k = [v] ∧
      ∀ r ∈ toArray dataInf.VALUE, r.attr k = some v) ∧
    (∀ k ∈ (packDataInf dataInf classInf).dims,
      2 ≤ (uniqueValsOf (toArray dataInf.VALUE) k).length) ∧
    (∀ p, pivotIdOf classInf = some p →
      (∀ v, (p, v) ∉ (packDataInf dataInf classInf).fixed.getD []) ∧
      p ∉ (packDataInf dataInf classInf).dims) ∧
    (∀ v, ("unit", v) ∉ (packDataInf dataInf classInf).fixed.getD []) ∧
    "unit" ∉ (packDataInf dataInf classInf).dims := by
  rw [packDataInf_fixed_getD, packDataInf_dims]
  refine ⟨?_, ?_, ?_, ?_, ?_, ?_⟩
  · intro k hk hpres hpiv hunit
    have hcand : k ∈ candidateDimsOf (toArray dataInf.VALUE) (pivotIdOf classInf) :=
      (mem_candidateDimsOf _ _ _).mpr ⟨hk, hpiv, hunit, hpres⟩
    obtain ⟨r0, hr0, hsome⟩ := hpres
    obtain ⟨w0, hw0⟩ := Option.isSome_iff_exists.mp hsome
    have hw0mem : w0 ∈ uniqueValsOf (toArray dataInf.VALUE) k :=
      (mem_uniqueValsOf _ _ _).mpr ⟨r0, hr0, hw0⟩
    by_cases hlen : (uniqueValsOf (toArray dataInf.VALUE) k).length = 1
    · obtain ⟨v, hv⟩ := List.length_eq_one.mp hlen
      refine ⟨Or.inl ⟨v, (mem_fixedOf _ _ _ _).mpr ⟨hcand, hv⟩⟩, ?_⟩
      rintro ⟨_, hdims⟩
      exact ((mem_dimsOf _ _ _).mp hdims).2 hlen
    · refine ⟨Or.inr ((mem_dimsOf _ _ _).mpr ⟨hcand, hlen⟩), ?_⟩
      rintro ⟨⟨v, hv⟩, _⟩
      have := ((mem_fixedOf _ _ _ _).mp hv).2
      rw [this] at hlen
      exact hlen rfl
  · intro k v hv
    obtain ⟨hcand, huniq⟩ := (mem_fixedOf _ _ _ _).mp hv
    refine ⟨huniq, fun r hr => ?_⟩
    obtain ⟨hkall, _, _, hpres⟩ := (mem_candidateDimsOf _ _ _).mp hcand
    have hsome := huniform k hkall hpres r hr
    obtain ⟨w, hw⟩ := Option.isSome_iff_exists.mp hsome
    have hwmem : w ∈ uniqueValsOf (toArray dataInf.VALUE) k :=
      (mem_uniqueValsOf _ _ _).mpr ⟨r, hr, hw⟩
    rw [huniq, List.mem_singleton] at hwmem
    rw [hw, hwmem]
  · intro k hk
    obtain ⟨hcand, hlen⟩ := (mem_dimsOf _ _ _).mp hk
    obtain ⟨_, _, _, r0, hr0, hsome⟩ := (mem_candidateDimsOf _ _ _).mp hcand
    obtain ⟨w0, hw0⟩ := Option.isSome_iff_exists.mp hsome
    have hw0mem : w0 ∈ uniqueValsOf (toArray dataInf.VALUE) k :=
      (mem_uniqueValsOf _ _ _).mpr ⟨r0, hr0, hw0⟩
    have hpos : 0 < (uniqueValsOf (toArray dataInf.VALUE) k).length :=
      List.length_pos_of_mem hw0mem
    omega
  · intro p hp
    constructor
    · intro v hv
      have := ((mem_candidateDimsOf _ _ _).mp ((mem_fixedOf _ _ _ _).mp hv).1).2.1
      exact this hp
    · intro hd
      have := ((mem_candidateDimsOf _ _ _).mp ((mem_dimsOf _ _ _).mp hd).1).2.1
      exact this hp
  · intro v hv
    have := ((mem_candidateDimsOf _ _ _).mp ((mem_fixedOf _ _ _ _).mp hv).1).2.2.1
    exact this rfl
  · intro hd
    have := ((mem_candidateDimsOf _ _ _).mp ((mem_dimsOf _ _ _).mp hd).1).2.2.1
    exact this rfl

theorem packDataInf_fixed_dims_partition_witness :
    (∀ k ∈ ALL_DIM_KEYS,
      (∃ r ∈ toArray dataInfC2.VALUE, (r.attr k).isSome = true) →
      ∀ r ∈ toArray dataInfC2.VALUE, (r.attr k).isSome = true) ∧
    (∀ k v, (k, v) ∈ (packDataInf dataInfC2 classInfC2).fixed.getD [] →
      uniqueValsOf (toArray dataInfC2.VALUE) k = [v] ∧
      ∀ r ∈ toArray dataInfC2.VALUE, r.attr k = some v) :=
  ⟨by decide, (packDataInf_fixed_dims_partition dataInfC2 classInfC2 (by decide)).2.1⟩

/-! Characterization of the grouping pass (steps 4 and 5) -/

/-- The group keys in first-seen order: the row order of the output. -/
def groupKeysOf (dims : List String) (records : List Value) : List String :=
  dedupFirst (records.map (groupKeyOf dims))

/-- The value finally held by the cell of group `g` at column `cix`: the
normalized value of the last input record (in input order) whose group key
is `g` and whose resolved column is `cix`, or null when no record wrote
there. -/
def lastWriteCell (dims : List String) (pid : Option String) (pcodes : List String)
    (records : List Value) (g : String) (cix : Nat) : Cell :=
  match (records.filter (fun r =>
      groupKeyOf dims r == g && colIdxOf pid pcodes r == some cix)).getLast? with
  | some r => normalizeValue r.VAL
  | none => Cell.null

/-- The annotation entries accumulated by group `g`: one `(column, code)`
pair per record of the group that resolves to a column and carries a truthy
annotation code, in input order. -/
def specAnns (dims : List String) (pid : Option String) (pcodes : List String)
    (records : List Value) (g : String) : List (Nat × String) :=
  records.filterMap (fun r =>
    if groupKeyOf dims r == g then
      match colIdxOf pid pcodes r, annOf r with
      | some cix, some a => some (cix, a)
      | _, _ => none
    else none)

theorem lastWriteCell_snoc (dims : List String) (pid : Option String)
    (pcodes : List String) (records : List Value) (r : Value) (g : String) (cix : Nat) :
    lastWriteCell dims pid pcodes (records ++ [r]) g cix =
      if groupKeyOf dims r == g && colIdxOf pid pcodes r == some cix
      then normalizeValue r.VAL
      else lastWriteCell dims pid pcodes records g cix := by
  unfold lastWriteCell
  rw [List.filter_append]
  cases hc : (groupKeyOf dims r == g && colIdxOf pid pcodes r == some cix) with
  | true =>
    simp only [List.filter_cons, hc, if_true, List.filter_nil, if_pos]
    rw [List.getLast?_concat]
  | false =>
    simp only [List.filter_cons, hc, Bool.false_eq_true, if_false, List.filter_nil,
      List.append_nil]

theorem specAnns_snoc (dims : List String) (pid : Option String) (pcodes : List String)
    (records : List Value) (r : Value) (g : String) :
    specAnns dims pid pcodes (records ++ [r]) g =
      specAnns dims pid pcodes records g ++
        (if groupKeyOf dims r == g then
          match colIdxOf pid pcodes r, annOf r with
          | some cix, some a => [(cix, a)]
          | _, _ => []
        else []) := by
  unfold specAnns
  rw [List.filterMap_append]
  congr 1
  cases hg : (groupKeyOf dims r == g) with
  | false =>
    have hg2 : groupKeyOf dims r ≠ g := by simpa [beq_eq_false_iff_ne] using hg
    simp [List.filterMap_cons, hg, hg2]
  | true =>
    have hg2 : groupKeyOf dims r = g := by simpa [beq_iff_eq] using hg
    cases hcol : colIdxOf pid pcodes r with
    | none => simp [List.filterMap_cons, hg, hg2, hcol]
    | some cix =>
      cases hann : annOf r with
      | none => simp [List.filterMap_cons, hg, hg2, hcol, hann]
      | some a => simp [List.filterMap_cons, hg, hg2, hcol, hann]

theorem lastWriteCell_of_no_key (dims : List String) (pid : Option String)
    (pcodes : List String) (records : List Value) (g : String)
    (h : ∀ r ∈ records, groupKeyOf dims r ≠ g) (cix : Nat) :
    lastWriteCell dims pid pcodes records g cix = Cell.null := by
  unfold lastWriteCell
  have hfil : records.filter (fun r =>
      groupKeyOf dims r == g && colIdxOf pid pcodes r == some cix) = [] := by
    rw [List.filter_eq_nil_iff]
    intro r hr
    simp [h r hr]
  rw [hfil]
  rfl

theorem specAnns_of_no_key (dims : List String) (pid : Option String)
    (pcodes : List String) (records : List Value) (g : String)
    (h : ∀ r ∈ records, groupKeyOf dims r ≠ g) :
    specAnns dims pid pcodes records g = [] := by
  unfold specAnns
  rw [List.filterMap_eq_nil_iff]
  intro r hr
  simp [h r hr]

theorem isSome_alGet_iff_mem_keys {β : Type} (l : List (String × β)) (k : String) :
    (alGet l k).isSome = true ↔ k ∈ l.map (fun p => p.1) := by
  induction l with
  | nil => simp [alGet]
  | cons p rest ih =>
    rw [alGet_cons]
    rcases eq_or_ne p.1 k with h | h
    · simp [h]
    · simp only [if_neg h, List.map_cons, List.mem_cons, ih]
      constructor
      · exact fun hm => Or.inr hm
      · rintro (hm | hm)
        · exact absurd hm.symm h
        · exact hm

theorem alGet_of_mem_of_nodup_keys {β : Type} (l : List (String × β))
    (hnd : (l.map (fun p => p.1)).Nodup) (p : String × β) (hp : p ∈ l) :
    alGet l p.1 = some p.2 := by
  induction l with
  | nil => simp at hp
  | cons q rest ih =>
    rw [List.map_cons, List.nodup_cons] at hnd
    rcases List.mem_cons.mp hp with h | h
    · subst h
      rw [alGet_cons, if_pos rfl]
    · have hne : q.1 ≠ p.1 := by
        intro he
        exact hnd.1 (he ▸ List.mem_map_of_mem (fun p => p.1) h)
      rw [alGet_cons, if_neg hne]
      exact ih hnd.2 h

theorem keys_alUpd {β : Type} (l : List (String × β)) (k : String) (f : β → β) :
    (alUpd l k f).map (fun p => p.1) = l.map (fun p => p.1) := by
  induction l with
  | nil => rfl
  | cons p rest ih =>
    unfold alUpd
    by_cases h : (p.1 == k) = true
    · rw [if_pos h]
      rfl
    · rw [if_neg h, List.map_cons, List.map_cons, ih]

theorem groupKeyOf_def (dims : List String) (r : Value) :
    joinKey (dimValuesOf dims r) = groupKeyOf dims r := rfl

theorem groupStep_written_record (dims : List String) (pid : Option String)
    (pcodes : List String) (nCols : Nat) (st : List (String × GroupState)) (r : Value)
    (cix : Nat) (h : colIdxOf pid pcodes r = some cix) :
    groupStep dims pid pcodes nCols st r =
      alUpd (if (alGet st (groupKeyOf dims r)).isSome then st
          else st ++ [(groupKeyOf dims r,
            ⟨dimValuesOf dims r, List.replicate nCols Cell.null, []⟩)])
        (groupKeyOf dims r)
        (fun gq => ⟨gq.dimValues, gq.values.set cix (normalizeValue r.VAL),
          gq.anns ++ (match annOf r with | some a => [(cix, a)] | none => [])⟩) := by
  simp only [groupStep, h]
  rfl

theorem buildGroups_snoc (dims : List String) (pid : Option String) (pcodes : List String)
    (nCols : Nat) (rs : List Value) (r : Value) :
    buildGroups dims pid pcodes nCols (rs ++ [r]) =
      groupStep dims pid pcodes nCols (buildGroups dims pid pcodes nCols rs) r := by
  simp [buildGroups, List.foldl_append]

theorem alGet_append_singleton {β : Type} (l : List (String × β)) (k0 : String)
    (v : β) (g : String) :
    alGet (l ++ [(k0, v)]) g =
      match alGet l g with
      | some w => some w
      | none => if k0 = g then some v else none := by
  rw [alGet_append]
  cases alGet l g with
  | some w => rfl
  | none => simp [alGet_cons, alGet_nil]

theorem set_range_map {γ : Type} (n cix : Nat) (f : Nat → γ) (v : γ) (h : cix < n) :
    ((List.range n).map f).set cix v = (List.range n).map (fun i => if i = cix then v else f i) := by
  apply List.ext_getElem?
  intro i
  rw [List.getElem?_set]
  simp only [List.getElem?_map]
  rcases eq_or_ne cix i with he | he
  · subst he
    simp [List.getElem?_range, h]
  · by_cases hi : i < n
    · simp [he, List.getElem?_range, hi, Ne.symm he]
    · have hnone : (List.range n)[i]? = none := by
        simp [List.getElem?_range]
        omega
      simp [he, hnone]

/-- Full characterization of the grouping pass: the group keys are the
record group keys in first-seen order, and every group's value array and
annotation list are described by `lastWriteCell` and `specAnns`. -/
theorem buildGroups_char (dims : List String) (pid : Option String) (pcodes : List String)
    (nCols : Nat) (hb : ∀ r cix, colIdxOf pid pcodes r = some cix → cix < nCols)
    (records : List Value) :
    (buildGroups dims pid pcodes nCols records).map (fun p => p.1) =
        groupKeysOf dims records ∧
    (∀ g gs, alGet (buildGroups dims pid pcodes nCols records) g = some gs →
      gs.values = (List.range nCols).map
        (fun cix => lastWriteCell dims pid pcodes records g cix) ∧
      gs.anns = specAnns dims pid pcodes records g) := by
  induction records using List.reverseRecOn with
  | nil =>
    refine ⟨rfl, ?_⟩
    intro g gs h
    simp [buildGroups, alGet] at h
  | append_singleton rs r ih =>
    obtain ⟨ih1, ih2⟩ := ih
    have hmemkeys : ((alGet (buildGroups dims pid pcodes nCols rs)
        (groupKeyOf dims r)).isSome = true) ↔
        groupKeyOf dims r ∈ rs.map (groupKeyOf dims) := by
      rw [isSome_alGet_iff_mem_keys, ih1]
      exact mem_dedupFirst _ _
    have hnokey : ¬((alGet (buildGroups dims pid pcodes nCols rs)
        (groupKeyOf dims r)).isSome = true) →
        ∀ r2 ∈ rs, groupKeyOf dims r2 ≠ groupKeyOf dims r := by
      intro hf r2 hr2 he
      exact hf (hmemkeys.mpr (he ▸ List.mem_map_of_mem (groupKeyOf dims) hr2))
    have hst1keys : (if (alGet (buildGroups dims pid pcodes nCols rs)
          (groupKeyOf dims r)).isSome then buildGroups dims pid pcodes nCols rs
        else buildGroups dims pid pcodes nCols rs ++ [(groupKeyOf dims r,
          ⟨dimValuesOf dims r, List.replicate nCols Cell.null, []⟩)]).map (fun p => p.1) =
        groupKeysOf dims (rs ++ [r]) := by
      have hgoal : groupKeysOf dims (rs ++ [r]) =
          dedupFirst (rs.map (groupKeyOf dims)) ++
            (if groupKeyOf dims r ∈ rs.map (groupKeyOf dims) then []
            else [groupKeyOf dims r]) := by
        unfold groupKeysOf
        rw [List.map_append]
        exact dedupFirst_append_one _ _
      rw [hgoal]
      by_cases hex : (alGet (buildGroups dims pid pcodes nCols rs)
          (groupKeyOf dims r)).isSome = true
      · rw [if_pos hex, ih1, if_pos (hmemkeys.mp hex), List.append_nil]
        rfl
      · rw [if_neg hex, List.map_append, ih1,
          if_neg (fun hm => hex (hmemkeys.mpr hm))]
        rfl
    have hst1get : ∀ g gs, alGet (if (alGet (buildGroups dims pid pcodes nCols rs)
          (groupKeyOf dims r)).isSome then buildGroups dims pid pcodes nCols rs
        else buildGroups dims pid pcodes nCols rs ++ [(groupKeyOf dims r,
          ⟨dimValuesOf dims r, List.replicate nCols Cell.null, []⟩)]) g = some gs →
        gs.values = (List.range nCols).map
          (fun cix => lastWriteCell dims pid pcodes rs g cix) ∧
        gs.anns = specAnns dims pid pcodes rs g := by
      intro g gs hget
      by_cases hex : (alGet (buildGroups dims pid pcodes nCols rs)
          (groupKeyOf dims r)).isSome = true
      · rw [if_pos hex] at hget
        exact ih2 g gs hget
      · rw [if_neg hex, alGet_append_singleton] at hget
        cases hGg : alGet (buildGroups dims pid pcodes nCols rs) g with
        | some w =>
          rw [hGg] at hget
          simp only [Option.some_inj] at hget
          exact hget ▸ ih2 g w hGg
        | none =>
          rw [hGg] at hget
          by_cases hk : groupKeyOf dims r = g
          · rw [if_pos hk] at hget
            simp only [Option.some_inj] at hget
            subst hget
            have hempty : ∀ r2 ∈ rs, groupKeyOf dims r2 ≠ g := by
              intro r2 hr2
              rw [← hk]
              exact hnokey hex r2 hr2
            constructor
            · show List.replicate nCols Cell.null = _
              symm
              apply List.eq_replicate_iff.mpr
              refine ⟨by simp, ?_⟩
              intro b hb2
              rcases List.mem_map.mp hb2 with ⟨cix, _, hcell⟩
              rw [← hcell, lastWriteCell_of_no_key dims pid pcodes rs g hempty]
            · show ([] : List (Nat × String)) = _
              rw [specAnns_of_no_key dims pid pcodes rs g hempty]
          · rw [if_neg hk] at hget
            exact absurd hget (by simp)
    refine ⟨?_, ?_⟩
    · rw [buildGroups_snoc]
      cases hcol : colIdxOf pid pcodes r with
      | none =>
        rw [groupStep_dropped_record dims pid pcodes nCols _ r hcol]
        exact hst1keys
      | some cix =>
        rw [groupStep_written_record dims pid pcodes nCols _ r cix hcol, keys_alUpd]
        exact hst1keys
    · intro g gs hget
      rw [buildGroups_snoc] at hget
      cases hcol : colIdxOf pid pcodes r with
      | none =>
        rw [groupStep_dropped_record dims pid pcodes nCols _ r hcol] at hget
        obtain ⟨hvals, hanns⟩ := hst1get g gs hget
        constructor
        · rw [hvals]
          apply List.map_congr_left
          intro cix _
          rw [lastWriteCell_snoc,
            show ((colIdxOf pid pcodes r == some cix) : Bool) = false from by
              rw [hcol]; rfl,
            Bool.and_false]
          rw [if_neg Bool.false_ne_true]
        · rw [hanns, specAnns_snoc]
          by_cases hk : (groupKeyOf dims r == g) = true
          · rw [if_pos hk, hcol, List.append_nil]
          · rw [if_neg hk, List.append_nil]
      | some cix =>
        rw [groupStep_written_record dims pid pcodes nCols _ r cix hcol,
          alGet_alUpd] at hget
        by_cases hk : g = groupKeyOf dims r
        · rw [if_pos hk] at hget
          cases hget0 : alGet (if (alGet (buildGroups dims pid pcodes nCols rs)
              (groupKeyOf dims r)).isSome then buildGroups dims pid pcodes nCols rs
            else buildGroups dims pid pcodes nCols rs ++ [(groupKeyOf dims r,
              ⟨dimValuesOf dims r, List.replicate nCols Cell.null, []⟩)])
            (groupKeyOf dims r) with
          | none => rw [hget0] at hget; exact absurd hget (by simp)
          | some gs0 =>
            rw [hget0] at hget
            simp only [Option.map_some', Option.some_inj] at hget
            obtain ⟨hvals0, hanns0⟩ := hst1get (groupKeyOf dims r) gs0 hget0
            subst hk
            subst hget
            constructor
            · show gs0.values.set cix (normalizeValue r.VAL) = _
              rw [hvals0, set_range_map _ _ _ _ (hb r cix hcol)]
              apply List.map_congr_left
              intro i _
              rw [lastWriteCell_snoc]
              rcases eq_or_ne i cix with he | he
              · subst he
                rw [if_pos rfl,
                  show ((groupKeyOf dims r == groupKeyOf dims r) &&
                    (colIdxOf pid pcodes r == some i) : Bool) = true from by
                      rw [hcol]; simp,
                  if_pos rfl]
              · rw [if_neg he,
                  show ((groupKeyOf dims r == groupKeyOf dims r) &&
                    (colIdxOf pid pcodes r == some i) : Bool) = false from by
                      rw [hcol]
                      simp [Ne.symm he],
                  if_neg Bool.false_ne_true]
            · show gs0.anns ++ _ = _
              rw [hanns0, specAnns_snoc, hcol,
                if_pos (show ((groupKeyOf dims r == groupKeyOf dims r) : Bool) = true
                  from by simp)]
              cases annOf r <;> rfl
        · rw [if_neg hk] at hget
          obtain ⟨hvals, hanns⟩ := hst1get g gs hget
          have hkf : ((groupKeyOf dims r == g) : Bool) = false := by
            rw [beq_eq_false_iff_ne]
            exact fun he => hk he.symm
          constructor
          · rw [hvals]
            apply List.map_congr_left
            intro i _
            rw [lastWriteCell_snoc, hkf, Bool.false_and, if_neg Bool.false_ne_true]
          · rw [hanns, specAnns_snoc, hkf, if_neg Bool.false_ne_true, List.append_nil]

theorem lastIdxOf_lt (codes : List String) (c : String) (j : Nat) :
    lastIdxOf codes c = some j → j < codes.length := by
  induction codes generalizing j with
  | nil => intro h; simp [lastIdxOf] at h
  | cons c0 rest ih =>
    intro h
    unfold lastIdxOf at h
    cases hr : lastIdxOf rest c with
    | some j2 =>
      rw [hr] at h
      simp only [Option.some_inj] at h
      subst h
      exact Nat.succ_lt_succ (ih j2 hr)
    | none =>
      rw [hr] at h
      by_cases hc : (c0 == c) = true
      · rw [if_pos hc] at h
        simp only [Option.some_inj] at h
        subst h
        simp
      · rw [if_neg hc] at h
        exact absurd h (by simp)

theorem colIdxOf_lt (classInf : ClassInf) (r : Value) (cix : Nat)
    (h : colIdxOf (pivotIdOf classInf) (pivotCodesOf classInf) r = some cix) :
    cix < (valueColsOf classInf).length := by
  unfold colIdxOf pivotIdOf pivotCodesOf at h
  unfold valueColsOf
  cases hd : detectPivotDim classInf with
  | none =>
    rw [hd] at h
    simp only [Option.map_none'] at h
    simp only [Option.some_inj] at h
    subst h
    simp
  | some p =>
    rw [hd] at h
    simp only [Option.map_some'] at h
    cases ha : r.attr p.2 with
    | none => rw [ha] at h; exact absurd h (by simp)
    | some code =>
      rw [ha] at h
      have hlt := lastIdxOf_lt _ _ _ h
      simpa using hlt

/-- C9: last-write-wins.  For every row of the packed output and every value
column, the cell at offset `dims.length + cix` of that row holds
`lastWriteCell`: the normalized value of the LAST input record (in input
order) that maps to that row's group key and that column, or null when no
record wrote there; earlier records writing the same cell are silently
discarded and no error is raised. -/
theorem packDataInf_last_write_wins (dataInf : DataInf) (classInf : ClassInf)
    (i cix : Nat) (row : List Cell) (g : String)
    (hrow : (packDataInf dataInf classInf).rows.get? i = some row)
    (hg : (groupKeysOf (dimsOf (toArray dataInf.VALUE) (pivotIdOf classInf))
        (toArray dataInf.VALUE)).get? i = some g)
    (hcix : cix < (valueColsOf classInf).length) :
    row.get? ((packDataInf dataInf classInf).dims.length + cix) =
      some (lastWriteCell (dimsOf (toArray dataInf.VALUE) (pivotIdOf classInf))
        (pivotIdOf classInf) (pivotCodesOf classInf) (toArray dataInf.VALUE) g cix) := by
  obtain ⟨hkeys, hchar⟩ := buildGroups_char
    (dimsOf (toArray dataInf.VALUE) (pivotIdOf classInf)) (pivotIdOf classInf)
    (pivotCodesOf classInf) (valueColsOf classInf).length
    (fun r c hrc => colIdxOf_lt classInf r c hrc) (toArray dataInf.VALUE)
  rw [packDataInf_rows] at hrow
  set G := buildGroups (dimsOf (toArray dataInf.VALUE) (pivotIdOf classInf))
    (pivotIdOf classInf) (pivotCodesOf classInf) (valueColsOf classInf).length
    (toArray dataInf.VALUE) with hGdef
  rw [List.get?_map] at hrow
  cases hp : G.get? i with
  | none => rw [hp] at hrow; exact absurd hrow (by simp)
  | some p =>
    rw [hp] at hrow
    simp only [Option.map_some', Option.some_inj] at hrow
    have hkey : p.1 = g := by
      rw [← hkeys] at hg
      rw [List.get?_map, hp] at hg
      simpa using hg
    have hmem : p ∈ G := List.get?_mem hp
    have hnd : (G.map (fun q => q.1)).Nodup := by
      rw [hkeys]
      exact nodup_dedupFirst _
    have halget := alGet_of_mem_of_nodup_keys G hnd p hmem
    obtain ⟨hvals, _⟩ := hchar p.1 p.2 halget
    obtain ⟨hdlen, _⟩ := buildGroups_shape _ _ _ _ _ p hmem
    subst hrow
    rw [packDataInf_dims]
    have hlen : (p.2.dimValues.map dimCell).length =
        (dimsOf (toArray dataInf.VALUE) (pivotIdOf classInf)).length := by
      rw [List.length_map, hdlen]
    rw [← hlen, List.get?_append_right (Nat.le_add_right _ _), Nat.add_sub_cancel_left,
      hvals, List.get?_map, List.get?_range hcix]
    rw [hkey]
    rfl

theorem enum_map_fst {γ δ : Type} (l : List γ) (f : γ → δ) :
    (l.map f).enum = l.enum.map (fun ia => (ia.1, f ia.2)) := by
  apply List.ext_getElem?
  intro n
  rw [← List.get?_eq_getElem?, ← List.get?_eq_getElem?, List.get?_enum, List.get?_map,
    List.get?_map, List.get?_enum]
  cases l.get? n <;> rfl

/-- The expected annotation side table: for the row of each group key (in
first-seen order), one `[rowIndex, colIndex, code]` entry per qualifying
record of that group, in input order. -/
def specAnnRows (dims : List String) (pid : Option String) (pcodes : List String)
    (records : List Value) : List (Nat × Nat × String) :=
  (groupKeysOf dims records).enum.flatMap (fun ig =>
    (specAnns dims pid pcodes records ig.2).map (fun ca => (ig.1, ca.1, ca.2)))

theorem buildGroups_annRows (dataInf : DataInf) (classInf : ClassInf) :
    ((buildGroups (dimsOf (toArray dataInf.VALUE) (pivotIdOf classInf))
        (pivotIdOf classInf) (pivotCodesOf classInf) (valueColsOf classInf).length
        (toArray dataInf.VALUE)).enum).flatMap
      (fun ip => ip.2.2.anns.map (fun ca => (ip.1, ca.1, ca.2))) =
    specAnnRows (dimsOf (toArray dataInf.VALUE) (pivotIdOf classInf))
      (pivotIdOf classInf) (pivotCodesOf classInf) (toArray dataInf.VALUE) := by
  obtain ⟨hkeys, hchar⟩ := buildGroups_char
    (dimsOf (toArray dataInf.VALUE) (pivotIdOf classInf)) (pivotIdOf classInf)
    (pivotCodesOf classInf) (valueColsOf classInf).length
    (fun r c hrc => colIdxOf_lt classInf r c hrc) (toArray dataInf.VALUE)
  set G := buildGroups (dimsOf (toArray dataInf.VALUE) (pivotIdOf classInf))
    (pivotIdOf classInf) (pivotCodesOf classInf) (valueColsOf classInf).length
    (toArray dataInf.VALUE) with hGdef
  unfold specAnnRows
  rw [← hkeys, enum_map_fst, List.flatMap_map]
  apply List.flatMap_congr
  intro ip hip
  have hget : G.get? ip.1 = some ip.2 := List.mem_enum_iff_get?.mp hip
  have hmem : ip.2 ∈ G := List.get?_mem hget
  have hnd : (G.map (fun q => q.1)).Nodup := by
    rw [hkeys]
    exact nodup_dedupFirst _
  have halget := alGet_of_mem_of_nodup_keys G hnd ip.2 hmem
  obtain ⟨_, hanns⟩ := hchar ip.2.1 ip.2.2 halget
  rw [hanns]

/-- Data for the C10 instance: two records of the same group and column,
both annotated, the second overwriting the first's value. -/
def dataInfC10 : DataInf :=
  { VALUE := .many
      [{ attrs := [("tab", "X"), ("annotation", "a1")], VAL := .str "1" },
       { attrs := [("tab", "X"), ("annotation", "a2")], VAL := .str "2" }] }

/-- C10: annotation codes accumulate rather than overwrite: `annRows`
consists, for each row index in order, of one `[rowIndex, colIndex, code]`
entry per input record of that row's group that resolves to a column and
carries a truthy annotation code, in input order — including records whose
cell values were later overwritten — so `annRows` may contain several
entries with the same row and column indices; concretely, two same-cell
annotated records yield the two entries `(0, 0, "a1")` and `(0, 0, "a2")`
even though only the value of the second survives in the row. -/
theorem packDataInf_annRows_accumulate :
    (∀ (dataInf : DataInf) (classInf : ClassInf),
      (packDataInf dataInf classInf).annRows =
        (if (specAnnRows (dimsOf (toArray dataInf.VALUE) (pivotIdOf classInf))
            (pivotIdOf classInf) (pivotCodesOf classInf) (toArray dataInf.VALUE)).isEmpty
        then none
        else some (specAnnRows (dimsOf (toArray dataInf.VALUE) (pivotIdOf classInf))
          (pivotIdOf classInf) (pivotCodesOf classInf) (toArray dataInf.VALUE)))) ∧
    (packDataInf dataInfC10 classInfC2).annRows = some [(0, 0, "a1"), (0, 0, "a2")] ∧
    (packDataInf dataInfC10 classInfC2).rows = [[Cell.num 2]] := by
  refine ⟨?_, by decide, by decide⟩
  intro dataInf classInf
  rw [packDataInf_annRows]
  rw [buildGroups_annRows dataInf classInf]

theorem packDataInf_last_write_wins_witness :
    (packDataInf dataInfC10 classInfC2).rows.get? 0 = some [Cell.num 2] ∧
    (groupKeysOf (dimsOf (toArray dataInfC10.VALUE) (pivotIdOf classInfC2))
        (toArray dataInfC10.VALUE)).get? 0 = some "" ∧
    0 < (valueColsOf classInfC2).length ∧
    ([Cell.num 2] : List Cell).get?
        ((packDataInf dataInfC10 classInfC2).dims.length + 0) =
      some (lastWriteCell (dimsOf (toArray dataInfC10.VALUE) (pivotIdOf classInfC2))
        (pivotIdOf classInfC2) (pivotCodesOf classInfC2) (toArray dataInfC10.VALUE) "" 0) := by
  refine ⟨by decide, by decide, by decide, ?_⟩
  exact packDataInf_last_write_wins dataInfC10 classInfC2 0 0 [Cell.num 2] ""
    (by decide) (by decide) (by decide)

/-! Generic greedy grouping compactor (`optimizeGroupingByCommonElements`) -/

/-- A flat attribute object after `@`-stripping, modelled as an
insertion-ordered association list; scalar attribute values are modelled
as strings, with decidable equality standing in for JS `===`. -/
abbrev Obj := List (String × String)

/-- `VALUE_KEYS = ["$"]`: the keys treated as values. -/
def VALUE_KEYS : List String := ["$"]

/-- Embeds `isValueKey`. -/
def isValueKey (k : String) : Bool := VALUE_KEYS.contains k

/-- JS object property read on an `Obj`. -/
def objGet (o : Obj) (k : String) : Option String := alGet o k

/-- Embeds `findCommonProperties`: the entries of `obj1`, value keys
excluded, that `obj2` carries with an equal value. -/
def findCommonProperties (o1 o2 : Obj) : Obj :=
  o1.filter (fun kv => !isValueKey kv.1 && objGet o2 kv.1 == some kv.2)

/-- Embeds `findCommonInArray`: the first item's non-value entries,
intersected with every further item. -/
def findCommonInArray : List Obj → Obj
  | [] => []
  | it0 :: rest =>
    rest.foldl (fun common it => common.filter (fun kv => objGet it kv.1 == some kv.2))
      (it0.filter (fun kv => !isValueKey kv.1))

/-- Embeds `extractVaryingProperties`: the entries whose key is not a key
of the metadata (`!(key in metadata)`). -/
def extractVaryingProperties (item : Obj) (metadata : Obj) : Obj :=
  item.filter (fun kv => !(objGet metadata kv.1).isSome)

/-- One output group of the compactor. -/
structure OptimizedGroup where
  metadata : Obj
  values : List Obj
deriving DecidableEq

/-- Embeds `createGroup`. -/
def createGroup (items : List Obj) : OptimizedGroup :=
  ⟨findCommonInArray items,
    items.map (fun item => extractVaryingProperties item (findCommonInArray items))⟩

/-- The singleton-group split used both for a lone remaining item and for a
pivot sharing nothing: value keys go to `values`, the rest to `metadata`. -/
def splitSingle (item : Obj) : OptimizedGroup :=
  ⟨item.filter (fun kv => !isValueKey kv.1), [item.filter (fun kv => isValueKey kv.1)]⟩

/-- One step of the best-pair scan: strictly improving on the count of
properties shared between the pivot and the visited item. -/
def bestStep (pivot : Obj) (acc : Int × Obj) (it : Obj) : Int × Obj :=
  let cp := findCommonProperties pivot it
  if acc.1 < (cp.length : Int) then ((cp.length : Int), cp) else acc

/-- The best-pair scan of the loop, starting from `(-1, {})`. -/
def bestCommonFold (pivot : Obj) (rest : List Obj) : Int × Obj :=
  rest.foldl (bestStep pivot) (-1, [])

/-- Embeds the `hasAllCommonProps` test of the collection pass. -/
def hasAllCommonProps (props : Obj) (item : Obj) : Bool :=
  props.all (fun kv => objGet item kv.1 == some kv.2)

/-- The while loop of `optimizeGroupingByCommonElements`, one iteration per
emitted group, with explicit fuel (the loop provably consumes at least one
item per iteration, so `fuel = data.length` never runs out; fuel makes the
definition structurally recursive and kernel-evaluable). -/
def optLoopF : Nat → List Obj → List OptimizedGroup
  | _, [] => []
  | _, [item] => [splitSingle item]
  | 0, _ :: _ :: _ => []
  | fuel + 1, pivot :: next :: rest =>
    let best := bestCommonFold pivot (next :: rest)
    if best.1 = 0 then splitSingle pivot :: optLoopF fuel (next :: rest)
    else
      createGroup ((pivot :: next :: rest).filter
          (fun it => hasAllCommonProps best.2 it)) ::
        optLoopF fuel ((pivot :: next :: rest).filter
          (fun it => !hasAllCommonProps best.2 it))

/-- Stable insertion of a group into a list sorted by descending metadata
size: the group goes after every group with at least as many metadata
keys. -/
def insertByMetaDesc (g : OptimizedGroup) : List OptimizedGroup → List OptimizedGroup
  | [] => [g]
  | h :: t =>
    if h.metadata.length < g.metadata.length then g :: h :: t
    else h :: insertByMetaDesc g t

/-- Models `groups.sort((a, b) => b.metadata.length - a.metadata.length)`:
a stable sort by descending metadata-key count (JS `Array.prototype.sort`
is stable). -/
def sortByMetaDesc : List OptimizedGroup → List OptimizedGroup
  | [] => []
  | g :: t => insertByMetaDesc g (sortByMetaDesc t)

/-- JSON rendering of a string literal (quote and backslash escapes; other
JS control-character escapes are not modelled — no claim depends on the
size metrics). -/
def jsonOfString (s : String) : String :=
  "\"" ++ String.mk (s.data.flatMap (fun c =>
    if c = '"' ∨ c = '\\' then ['\\', c] else [c])) ++ "\""

/-- JSON rendering of an attribute object. -/
def jsonOfObj (o : Obj) : String :=
  "\x7b" ++ String.intercalate ","
    (o.map (fun kv => jsonOfString kv.1 ++ ":" ++ jsonOfString kv.2)) ++ "\x7d"

/-- JSON rendering of a list of attribute objects. -/
def jsonOfObjList (l : List Obj) : String :=
  "[" ++ String.intercalate "," (l.map jsonOfObj) ++ "]"

/-- JSON rendering of one group. -/
def jsonOfGroup (g : OptimizedGroup) : String :=
  "\x7b" ++ "\"metadata\":" ++ jsonOfObj g.metadata ++ ",\"values\":" ++
    jsonOfObjList g.values ++ "\x7d"

/-- The result record of the compactor. -/
structure GroupingResult where
  groups : List OptimizedGroup
  totalOriginalSize : Nat
  totalCompressedSize : Nat
  compressionRatio : Rat
deriving DecidableEq

/-- Embeds `optimizeGroupingByCommonElements`: greedy grouping of the input
followed by the presentation sort and the size metrics (`calculateSize` is
the length of the JSON rendering). -/
def optimizeGroupingByCommonElements (data : List Obj) : GroupingResult :=
  if data = [] then ⟨[], 0, 0, 0⟩
  else
    let totalOriginalSize := (jsonOfObjList data).length
    let groups := sortByMetaDesc (optLoopF data.length data)
    let totalCompressedSize :=
      ("\x7b\"groups\":[" ++ String.intercalate "," (groups.map jsonOfGroup) ++
        "]\x7d").length
    ⟨groups, totalOriginalSize, totalCompressedSize,
      if 0 < totalOriginalSize then
        ((totalOriginalSize : Rat) - (totalCompressedSize : Rat)) / (totalOriginalSize : Rat)
      else 0⟩

theorem mem_of_objGet_eq (o : Obj) (k v : String) (h : objGet o k = some v) :
    (k, v) ∈ o := by
  unfold objGet alGet at h
  cases hf : o.find? (fun p => p.1 == k) with
  | none => rw [hf] at h; simp at h
  | some p =>
    rw [hf] at h
    simp only [Option.map_some', Option.some_inj] at h
    have hmem := List.mem_of_find?_eq_some hf
    have hcond := List.find?_some hf
    have hp : p = (k, v) := by
      obtain ⟨p1, p2⟩ := p
      simp only [beq_iff_eq] at hcond
      simp only at h
      rw [hcond, h]
    exact hp ▸ hmem

theorem objGet_eq_of_mem_nodup (o : Obj) (hnd : (o.map Prod.fst).Nodup) (k v : String)
    (h : (k, v) ∈ o) : objGet o k = some v :=
  alGet_of_mem_of_nodup_keys o hnd (k, v) h

theorem objGet_append_left (o1 o2 : Obj) (k v : String) (h : objGet o1 k = some v) :
    objGet (o1 ++ o2) k = some v := by
  unfold objGet
  rw [alGet_append]
  unfold objGet at h
  rw [h]

theorem objGet_append_right (o1 o2 : Obj) (k : String) (h : objGet o1 k = none) :
    objGet (o1 ++ o2) k = objGet o2 k := by
  unfold objGet
  rw [alGet_append]
  unfold objGet at h
  rw [h]

theorem objGet_filter_key (o : Obj) (p : String → Bool) (k : String) :
    objGet (o.filter (fun kv => p kv.1)) k = if p k = true then objGet o k else none := by
  induction o with
  | nil => simp [objGet, alGet]
  | cons q rest ih =>
    rw [List.filter_cons]
    by_cases hq : p q.1 = true
    · rw [if_pos hq]
      show objGet (q :: rest.filter (fun kv => p kv.1)) k = _
      unfold objGet
      rw [alGet_cons, alGet_cons]
      by_cases hk : q.1 = k
      · rw [if_pos hk, if_pos (hk ▸ hq), if_pos hk]
      · rw [if_neg hk, if_neg hk]
        exact ih
    · rw [if_neg hq]
      rw [ih]
      by_cases hk : q.1 = k
      · rw [← hk]
        rw [if_neg hq, if_neg hq]
      · by_cases hpk : p k = true
        · rw [if_pos hpk, if_pos hpk]
          unfold objGet
          rw [alGet_cons, if_neg hk]
        · rw [if_neg hpk, if_neg hpk]

theorem objGet_eq_none_of_not_mem_keys (o : Obj) (k : String)
    (h : k ∉ o.map Prod.fst) : objGet o k = none := by
  cases ho : objGet o k with
  | none => rfl
  | some v =>
    exfalso
    apply h
    have : (alGet o k).isSome = true := by
      unfold objGet at ho
      rw [ho]
      rfl
    have := (isSome_alGet_iff_mem_keys o k).mp this
    simpa using this

/-- Erasure of one entry, with the `BEq` instance pinned by this single
definition so that all lemmas below agree on it. -/
def objErase (o : Obj) (q : String × String) : Obj := o.erase q

theorem obj_perm_cons_erase (o : Obj) (q : String × String) (h : q ∈ o) :
    o.Perm (q :: objErase o q) := by
  unfold objErase
  induction o with
  | nil => simp at h
  | cons p rest ih =>
    by_cases hp : p = q
    · subst hp
      rw [List.erase_cons_head]
    · rw [List.erase_cons_tail (by simpa [beq_iff_eq] using hp)]
      have hmem : q ∈ rest := by
        rcases List.mem_cons.mp h with he | he
        · exact absurd he.symm hp
        · exact he
      exact ((ih hmem).cons p).trans (List.Perm.swap q p _)

theorem objErase_sublist (o : Obj) (q : String × String) : (objErase o q).Sublist o :=
  List.erase_sublist _ _

theorem objGet_erase_of_nodup (o : Obj) (hnd : (o.map Prod.fst).Nodup)
    (q : String × String) (hmem : q ∈ o) (k2 : String) :
    objGet (objErase o q) k2 = if k2 = q.1 then none else objGet o k2 := by
  unfold objErase
  induction o with
  | nil => simp at hmem
  | cons p rest ih =>
    rw [List.map_cons, List.nodup_cons] at hnd
    by_cases hp : p = q
    · subst hp
      rw [List.erase_cons_head]
      by_cases hk2 : k2 = p.1
      · subst hk2
        rw [if_pos rfl]
        apply objGet_eq_none_of_not_mem_keys
        exact hnd.1
      · rw [if_neg hk2]
        unfold objGet
        rw [alGet_cons, if_neg (fun he => hk2 he.symm)]
    · have hmem2 : q ∈ rest := by
        rcases List.mem_cons.mp hmem with he | he
        · exact absurd he.symm hp
        · exact he
      rw [List.erase_cons_tail (by simpa [beq_iff_eq] using hp)]
      unfold objGet
      rw [alGet_cons, alGet_cons]
      by_cases hpk : p.1 = k2
      · rw [if_pos hpk, if_pos hpk]
        have hne : k2 ≠ q.1 := by
          intro he
          apply hnd.1
          rw [hpk, he]
          exact List.mem_map_of_mem Prod.fst hmem2
        rw [if_neg hne]
      · rw [if_neg hpk, if_neg hpk]
        exact ih hnd.2 hmem2

theorem perm_of_objGet_eq (o1 : Obj) :
    ∀ (o2 : Obj), (o1.map Prod.fst).Nodup → (o2.map Prod.fst).Nodup →
      (∀ k, objGet o1 k = objGet o2 k) → o1.Perm o2 := by
  induction o1 with
  | nil =>
    intro o2 _ _ h
    cases o2 with
    | nil => exact List.Perm.refl _
    | cons p rest =>
      exfalso
      have := h p.1
      unfold objGet alGet at this
      simp [List.find?] at this
  | cons p t ih =>
    intro o2 hnd1 hnd2 h
    rw [List.map_cons, List.nodup_cons] at hnd1
    have hget : objGet o2 p.1 = some p.2 := by
      rw [← h p.1]
      unfold objGet
      rw [alGet_cons, if_pos rfl]
    have hmem : p ∈ o2 := by
      have := mem_of_objGet_eq o2 p.1 p.2 hget
      simpa using this
    have hnd2e : ((objErase o2 p).map Prod.fst).Nodup :=
      List.Nodup.sublist ((objErase_sublist o2 p).map Prod.fst) hnd2
    have hrest : ∀ k, objGet t k = objGet (objErase o2 p) k := by
      intro k
      rw [objGet_erase_of_nodup o2 hnd2 p hmem k]
      by_cases hk : k = p.1
      · subst hk
        rw [if_pos rfl]
        exact objGet_eq_none_of_not_mem_keys t p.1 hnd1.1
      · rw [if_neg hk]
        rw [← h k]
        unfold objGet
        rw [alGet_cons, if_neg (fun he => hk he.symm)]
    have hperm := ih (objErase o2 p) hnd1.2 hnd2e hrest
    exact (hperm.cons p).trans (obj_perm_cons_erase o2 p hmem).symm

theorem foldl_filter_fusion {α : Type} (l : List α) (q : α → (String × String) → Bool) :
    ∀ init : Obj, l.foldl (fun c it => c.filter (q it)) init =
      init.filter (fun kv => l.all (fun it => q it kv)) := by
  induction l with
  | nil => intro init; simp
  | cons it l ih =>
    intro init
    rw [List.foldl_cons, ih (init.filter (q it)), List.filter_filter]
    apply List.filter_congr
    intro kv _
    rw [List.all_cons]
    exact Bool.and_comm _ _

theorem findCommonInArray_filter (it0 : Obj) (rest : List Obj) :
    findCommonInArray (it0 :: rest) =
      it0.filter (fun kv => (!isValueKey kv.1) &&
        rest.all (fun it => objGet it kv.1 == some kv.2)) := by
  show (rest.foldl (fun common it => common.filter (fun kv => objGet it kv.1 == some kv.2))
      (it0.filter (fun kv => !isValueKey kv.1))) = _
  rw [foldl_filter_fusion rest (fun it kv => objGet it kv.1 == some kv.2)
    (it0.filter (fun kv => !isValueKey kv.1)), List.filter_filter]
  apply List.filter_congr
  intro kv _
  exact Bool.and_comm _ _

theorem mem_findCommonInArray (it0 : Obj) (rest : List Obj) (k v : String) :
    (k, v) ∈ findCommonInArray (it0 :: rest) ↔
      (k, v) ∈ it0 ∧ isValueKey k = false ∧ ∀ it ∈ rest, objGet it k = some v := by
  rw [findCommonInArray_filter, List.mem_filter]
  simp [List.all_eq_true, Bool.not_eq_true']

theorem metadata_keys_nodup (it0 : Obj) (rest : List Obj)
    (hnd : (it0.map Prod.fst).Nodup) :
    ((findCommonInArray (it0 :: rest)).map Prod.fst).Nodup := by
  rw [findCommonInArray_filter]
  exact List.Nodup.sublist ((List.filter_sublist _).map Prod.fst) hnd

theorem metadata_objGet_item (items : List Obj)
    (hnd : ∀ o ∈ items, (o.map Prod.fst).Nodup)
    (item : Obj) (hit : item ∈ items) (k v : String)
    (hmd : (k, v) ∈ findCommonInArray items) : objGet item k = some v := by
  cases items with
  | nil => simp at hit
  | cons it0 rest =>
    have hmem0 : (k, v) ∈ it0 := ((mem_findCommonInArray it0 rest k v).mp hmd).1
    have hrest := ((mem_findCommonInArray it0 rest k v).mp hmd).2.2
    rcases List.mem_cons.mp hit with he | he
    · subst he
      exact objGet_eq_of_mem_nodup item (hnd item hit) k v hmem0
    · exact hrest item he

/-- Per-item reconstruction: overlaying an item's varying entries on the
group metadata recovers the item, up to reordering of its entries. -/
theorem reconstruct_perm (items : List Obj)
    (hnd : ∀ o ∈ items, (o.map Prod.fst).Nodup) (item : Obj) (hit : item ∈ items) :
    (findCommonInArray items ++
      extractVaryingProperties item (findCommonInArray items)).Perm item := by
  cases items with
  | nil => simp at hit
  | cons it0 rest =>
    have hndmd : ((findCommonInArray (it0 :: rest)).map Prod.fst).Nodup :=
      metadata_keys_nodup it0 rest (hnd it0 (List.mem_cons_self _ _))
    have hnditem : (item.map Prod.fst).Nodup := hnd item hit
    have hpermMd : (findCommonInArray (it0 :: rest)).Perm
        (item.filter (fun kv => (objGet (findCommonInArray (it0 :: rest)) kv.1).isSome)) := by
      apply perm_of_objGet_eq _ _ hndmd
        (List.Nodup.sublist ((List.filter_sublist _).map Prod.fst) hnditem)
      intro k
      rw [objGet_filter_key item
        (fun k2 => (objGet (findCommonInArray (it0 :: rest)) k2).isSome) k]
      cases hmk : objGet (findCommonInArray (it0 :: rest)) k with
      | some v =>
        have hik : objGet item k = some v :=
          metadata_objGet_item (it0 :: rest) hnd item hit k v
            (mem_of_objGet_eq _ k v hmk)
        simp [hik]
      | none =>
        simp
    have hsplit := List.filter_append_perm
      (fun kv => (objGet (findCommonInArray (it0 :: rest)) kv.1).isSome) item
    show (findCommonInArray (it0 :: rest) ++
      item.filter (fun kv => !(objGet (findCommonInArray (it0 :: rest)) kv.1).isSome)).Perm
      item
    exact (hpermMd.append_right _).trans hsplit

theorem bestCommonFold_exists (pivot : Obj) (rest : List Obj) (hne : rest ≠ []) :
    ∃ it ∈ rest, bestCommonFold pivot rest =
      (((findCommonProperties pivot it).length : Int), findCommonProperties pivot it) := by
  have aux : ∀ (l : List Obj) (acc : Int × Obj),
      l.foldl (bestStep pivot) acc = acc ∨
      ∃ it ∈ l, l.foldl (bestStep pivot) acc =
        (((findCommonProperties pivot it).length : Int), findCommonProperties pivot it) := by
    intro l
    induction l with
    | nil => intro acc; exact Or.inl rfl
    | cons it l ih =>
      intro acc
      rw [List.foldl_cons]
      rcases ih (bestStep pivot acc it) with h | ⟨it2, hit2, h⟩
      · rw [h]
        unfold bestStep
        by_cases hlt : acc.1 < ((findCommonProperties pivot it).length : Int)
        · exact Or.inr ⟨it, List.mem_cons_self _ _, by rw [if_pos hlt]⟩
        · exact Or.inl (by rw [if_neg hlt])
      · exact Or.inr ⟨it2, List.mem_cons_of_mem _ hit2, h⟩
  cases rest with
  | nil => exact absurd rfl hne
  | cons it0 rest2 =>
    unfold bestCommonFold
    rw [List.foldl_cons]
    have hstep0 : bestStep pivot (-1, []) it0 =
        (((findCommonProperties pivot it0).length : Int), findCommonProperties pivot it0) := by
      unfold bestStep
      rw [if_pos (by omega)]
    rw [hstep0]
    rcases aux rest2 (((findCommonProperties pivot it0).length : Int),
        findCommonProperties pivot it0) with h | ⟨it2, hit2, h⟩
    · exact ⟨it0, List.mem_cons_self _ _, h⟩
    · exact ⟨it2, List.mem_cons_of_mem _ hit2, h⟩

theorem hasAll_findCommon_self (pivot it : Obj) :
    hasAllCommonProps (findCommonProperties pivot it) it = true := by
  unfold hasAllCommonProps
  rw [List.all_eq_true]
  intro kv hkv
  have hcond := List.of_mem_filter hkv
  rw [Bool.and_eq_true] at hcond
  exact hcond.2

theorem length_filter_lt_of_exists_not {α : Type} (p : α → Bool) (l : List α)
    (h : ∃ x ∈ l, p x = false) : (l.filter p).length < l.length := by
  induction l with
  | nil => simp at h
  | cons a t ih =>
    rw [List.filter_cons, List.length_cons]
    rcases h with ⟨x, hx, hpx⟩
    rcases List.mem_cons.mp hx with he | hxt
    · subst he
      rw [hpx]
      simp only [Bool.false_eq_true, if_false]
      exact Nat.lt_succ_of_le (List.length_filter_le _ _)
    · cases hpa : p a with
      | true =>
        simp only [if_true, List.length_cons]
        exact Nat.succ_lt_succ (ih ⟨x, hxt, hpx⟩)
      | false =>
        simp only [Bool.false_eq_true, if_false]
        exact Nat.lt_succ_of_le (List.length_filter_le _ _)

/-- The collection pass always consumes at least one item: some member of
the remaining list (a best-overlap partner of the pivot) matches all best
shared properties, hence survives into the group. -/
theorem filter_not_hasAll_length_lt (pivot : Obj) (rest : List Obj) (hne : rest ≠ []) :
    ((pivot :: rest).filter (fun it =>
      !hasAllCommonProps (bestCommonFold pivot rest).2 it)).length <
      (pivot :: rest).length := by
  obtain ⟨it, hit, hbest⟩ := bestCommonFold_exists pivot rest hne
  apply length_filter_lt_of_exists_not
  refine ⟨it, List.mem_cons_of_mem _ hit, ?_⟩
  rw [hbest]
  simp [hasAll_findCommon_self pivot it]

theorem insertByMetaDesc_perm (g : OptimizedGroup) (l : List OptimizedGroup) :
    (insertByMetaDesc g l).Perm (g :: l) := by
  induction l with
  | nil => exact List.Perm.refl _
  | cons h t ih =>
    unfold insertByMetaDesc
    by_cases hc : h.metadata.length < g.metadata.length
    · rw [if_pos hc]
    · rw [if_neg hc]
      exact (ih.cons h).trans (List.Perm.swap g h t)

theorem sortByMetaDesc_perm (l : List OptimizedGroup) : (sortByMetaDesc l).Perm l := by
  induction l with
  | nil => exact List.Perm.refl _
  | cons g t ih =>
    unfold sortByMetaDesc
    exact (insertByMetaDesc_perm g (sortByMetaDesc t)).trans (ih.cons g)

theorem splitSingle_reconstruct (item : Obj) :
    ((splitSingle item).metadata ++ item.filter (fun kv => isValueKey kv.1)).Perm item := by
  have hperm := List.filter_append_perm (fun kv => !isValueKey kv.1) item
  have hcong : item.filter (fun kv => !(!isValueKey kv.1)) =
      item.filter (fun kv => isValueKey kv.1) :=
    List.filter_congr (fun kv _ => by simp)
  show (item.filter (fun kv => !isValueKey kv.1) ++
    item.filter (fun kv => isValueKey kv.1)).Perm item
  rw [← hcong]
  exact hperm

/-- The multiset of key-value pairs of an object: two duplicate-free-keyed
objects are equal as attribute maps exactly when their `objMS` images are
equal. -/
def objMS (o : Obj) : Multiset (String × String) := (o : Multiset (String × String))

theorem objMS_eq_of_perm (o1 o2 : Obj) (h : o1.Perm o2) : objMS o1 = objMS o2 :=
  Multiset.coe_eq_coe.mpr h

theorem optLoopF_reconstruct : ∀ (fuel : Nat) (l : List Obj), l.length ≤ fuel →
    (∀ o ∈ l, (o.map Prod.fst).Nodup) →
    ((optLoopF fuel l).flatMap (fun g =>
        g.values.map (fun w => objMS (g.metadata ++ w)))).Perm (l.map objMS) := by
  intro fuel
  induction fuel with
  | zero =>
    intro l hl _
    have hnil : l = [] := List.length_eq_zero.mp (Nat.le_zero.mp hl)
    subst hnil
    simp [optLoopF]
  | succ fuel ih =>
    intro l hl hnd
    match l with
    | [] => simp [optLoopF]
    | [item] =>
      show (([splitSingle item]).flatMap (fun g =>
        g.values.map (fun w => objMS (g.metadata ++ w)))).Perm _
      simp only [List.flatMap_cons, List.flatMap_nil, List.append_nil, List.map_cons,
        List.map_nil]
      show [objMS ((splitSingle item).metadata ++
        item.filter (fun kv => isValueKey kv.1))].Perm [objMS item]
      rw [objMS_eq_of_perm _ _ (splitSingle_reconstruct item)]
    | pivot :: next :: rest =>
      show ((if (bestCommonFold pivot (next :: rest)).1 = 0 then
          splitSingle pivot :: optLoopF fuel (next :: rest)
        else
          createGroup ((pivot :: next :: rest).filter
              (fun it => hasAllCommonProps (bestCommonFold pivot (next :: rest)).2 it)) ::
            optLoopF fuel ((pivot :: next :: rest).filter
              (fun it => !hasAllCommonProps (bestCommonFold pivot (next :: rest)).2 it))).flatMap
        (fun g => g.values.map (fun w => objMS (g.metadata ++ w)))).Perm _
      have hlen2 : (next :: rest).length ≤ fuel := by
        simpa using Nat.succ_le_succ_iff.mp (by simpa using hl)
      by_cases hb : (bestCommonFold pivot (next :: rest)).1 = 0
      · rw [if_pos hb, List.flatMap_cons, List.map_cons]
        show ([objMS ((splitSingle pivot).metadata ++
            pivot.filter (fun kv => isValueKey kv.1))] ++ _).Perm _
        rw [objMS_eq_of_perm _ _ (splitSingle_reconstruct pivot)]
        exact (ih (next :: rest) hlen2
          (fun o ho => hnd o (List.mem_cons_of_mem _ ho))).cons _
      · rw [if_neg hb, List.flatMap_cons, List.map_cons]
        have hndsub : ∀ o ∈ (pivot :: next :: rest).filter
            (fun it => hasAllCommonProps (bestCommonFold pivot (next :: rest)).2 it),
            (o.map Prod.fst).Nodup :=
          fun o ho => hnd o (List.mem_of_mem_filter ho)
        have hhead : (createGroup ((pivot :: next :: rest).filter
            (fun it => hasAllCommonProps (bestCommonFold pivot (next :: rest)).2 it))).values.map
              (fun w => objMS ((createGroup ((pivot :: next :: rest).filter
                (fun it => hasAllCommonProps
                  (bestCommonFold pivot (next :: rest)).2 it))).metadata ++ w)) =
            ((pivot :: next :: rest).filter
              (fun it => hasAllCommonProps (bestCommonFold pivot (next :: rest)).2 it)).map
              objMS := by
          show (((pivot :: next :: rest).filter
            (fun it => hasAllCommonProps (bestCommonFold pivot (next :: rest)).2 it)).map
            (fun item => extractVaryingProperties item (findCommonInArray _))).map _ = _
          rw [List.map_map]
          apply List.map_congr_left
          intro it hit
          exact objMS_eq_of_perm _ _ (reconstruct_perm _ hndsub it hit)
        rw [hhead]
        have hreclen : ((pivot :: next :: rest).filter
            (fun it => !hasAllCommonProps (bestCommonFold pivot (next :: rest)).2 it)).length ≤
            fuel := by
          have := filter_not_hasAll_length_lt pivot (next :: rest) (by simp)
          omega
        have hrec := ih _ hreclen
          (fun o ho => hnd o (List.mem_of_mem_filter ho))
        have hcomb := (List.Perm.refl (((pivot :: next :: rest).filter
            (fun it => hasAllCommonProps (bestCommonFold pivot (next :: rest)).2 it)).map
            objMS)).append hrec
        apply hcomb.trans
        rw [← List.map_append]
        exact (List.filter_append_perm _ _).map _

theorem optimizeGroupingByCommonElements_groups (data : List Obj) (hd : data ≠ []) :
    (optimizeGroupingByCommonElements data).groups =
      sortByMetaDesc (optLoopF data.length data) := by
  unfold optimizeGroupingByCommonElements
  rw [if_neg hd]

/-- C4: partition and exact reconstruction.  Overlaying each grouped item's
varying fields on its group's metadata yields, over all groups together,
exactly the original input items: the multiset of reconstructed attribute
maps is a permutation of the multiset of inputs (objects, whose keys are
duplicate-free, are compared via `objMS`, multiset equality of key-value
pairs, which is attribute-for-attribute map equality).  In particular every
input item is represented in exactly one group. -/
theorem optimizeGrouping_reconstruction (data : List Obj)
    (hkeys : ∀ o ∈ data, (o.map Prod.fst).Nodup) :
    ((optimizeGroupingByCommonElements data).groups.flatMap (fun g =>
        g.values.map (fun w => objMS (g.metadata ++ w)))).Perm (data.map objMS) := by
  by_cases hd : data = []
  · subst hd
    simp [optimizeGroupingByCommonElements]
  · rw [optimizeGroupingByCommonElements_groups data hd]
    exact ((sortByMetaDesc_perm (optLoopF data.length data)).flatMap_right _).trans
      (optLoopF_reconstruct data.length data (le_refl _) hkeys)

/-- Concrete input for the grouping-compactor witnesses: two records
sharing the non-value attribute `a` and differing in their `$` values. -/
def dataC45 : List Obj := [[("a", "1"), ("$", "v1")], [("a", "1"), ("$", "v2")]]

theorem optimizeGrouping_reconstruction_witness :
    (∀ o ∈ dataC45, (o.map Prod.fst).Nodup) ∧
    ((optimizeGroupingByCommonElements dataC45).groups.flatMap (fun g =>
        g.values.map (fun w => objMS (g.metadata ++ w)))).Perm (dataC45.map objMS) :=
  ⟨by decide, optimizeGrouping_reconstruction dataC45 (by decide)⟩

theorem splitSingle_eq_createGroup (item : Obj) : splitSingle item = createGroup [item] := by
  have hmd : findCommonInArray [item] = item.filter (fun kv => !isValueKey kv.1) := by
    rw [findCommonInArray_filter]
    apply List.filter_congr
    intro kv _
    simp
  unfold splitSingle createGroup
  rw [hmd]
  congr 1
  show [item.filter (fun kv => isValueKey kv.1)] =
    [extractVaryingProperties item (item.filter (fun kv => !isValueKey kv.1))]
  congr 1
  unfold extractVaryingProperties
  apply List.filter_congr
  intro kv hkv
  rw [objGet_filter_key item (fun k2 => !isValueKey k2) kv.1]
  cases hv : isValueKey kv.1 with
  | true => simp
  | false =>
    have hsome : (objGet item kv.1).isSome = true := by
      rw [show objGet item kv.1 = alGet item kv.1 from rfl, isSome_alGet_iff_mem_keys]
      exact List.mem_map_of_mem (fun p => p.1) hkv
    simp [hsome]

theorem optLoopF_groups_from_items : ∀ (fuel : Nat) (l : List Obj), l.length ≤ fuel →
    ∀ g ∈ optLoopF fuel l, ∃ items, items ≠ [] ∧ (∀ x ∈ items, x ∈ l) ∧
      g = createGroup items := by
  intro fuel
  induction fuel with
  | zero =>
    intro l hl g hg
    have hnil : l = [] := List.length_eq_zero.mp (Nat.le_zero.mp hl)
    subst hnil
    simp [optLoopF] at hg
  | succ fuel ih =>
    intro l hl g hg
    match l with
    | [] => simp [optLoopF] at hg
    | [item] =>
      have hgs : g = splitSingle item := by simpa [optLoopF] using hg
      exact ⟨[item], by simp, by simp, by rw [hgs, splitSingle_eq_createGroup]⟩
    | pivot :: next :: rest =>
      have hlen2 : (next :: rest).length ≤ fuel := by
        simpa using Nat.succ_le_succ_iff.mp (by simpa using hl)
      by_cases hb : (bestCommonFold pivot (next :: rest)).1 = 0
      · rw [show optLoopF (fuel + 1) (pivot :: next :: rest) = splitSingle pivot ::
            optLoopF fuel (next :: rest) from by
              show (if (bestCommonFold pivot (next :: rest)).1 = 0 then _ else _) = _
              rw [if_pos hb]] at hg
        rcases List.mem_cons.mp hg with he | he
        · exact ⟨[pivot], by simp, by simp, by rw [he, splitSingle_eq_createGroup]⟩
        · obtain ⟨items, h1, h2, h3⟩ := ih (next :: rest) hlen2 g he
          exact ⟨items, h1, fun x hx => List.mem_cons_of_mem _ (h2 x hx), h3⟩
      · rw [show optLoopF (fuel + 1) (pivot :: next :: rest) =
            createGroup ((pivot :: next :: rest).filter
                (fun it => hasAllCommonProps (bestCommonFold pivot (next :: rest)).2 it)) ::
              optLoopF fuel ((pivot :: next :: rest).filter
                (fun it => !hasAllCommonProps (bestCommonFold pivot (next :: rest)).2 it))
            from by
              show (if (bestCommonFold pivot (next :: rest)).1 = 0 then _ else _) = _
              rw [if_neg hb]] at hg
        rcases List.mem_cons.mp hg with he | he
        · refine ⟨_, ?_, fun x hx => List.mem_of_mem_filter hx, he⟩
          obtain ⟨it, hit, hbest⟩ := bestCommonFold_exists pivot (next :: rest) (by simp)
          intro hnil
          have hmem : it ∈ (pivot :: next :: rest).filter
              (fun it2 => hasAllCommonProps (bestCommonFold pivot (next :: rest)).2 it2) := by
            rw [List.mem_filter]
            refine ⟨List.mem_cons_of_mem _ hit, ?_⟩
            rw [hbest]
            exact hasAll_findCommon_self pivot it
          rw [hnil] at hmem
          simp at hmem
        · have hreclen : ((pivot :: next :: rest).filter
              (fun it => !hasAllCommonProps (bestCommonFold pivot (next :: rest)).2 it)).length ≤
              fuel := by
            have := filter_not_hasAll_length_lt pivot (next :: rest) (by simp)
            omega
          obtain ⟨items, h1, h2, h3⟩ := ih _ hreclen g he
          exact ⟨items, h1, fun x hx => List.mem_of_mem_filter (h2 x hx), h3⟩

/-- C5: metadata is exactly the attribute-wise intersection of the group's
members, restricted to non-value keys: a key-value pair is in a group's
metadata iff the key is not the reserved `$` value key and every member of
the group (each member reconstructed as metadata overlaid with its varying
fields) carries that key with that value; every emitted group also has at
least one member. -/
theorem optimizeGrouping_metadata_intersection (data : List Obj)
    (hkeys : ∀ o ∈ data, (o.map Prod.fst).Nodup) :
    ∀ g ∈ (optimizeGroupingByCommonElements data).groups,
      g.values ≠ [] ∧
      ∀ k v, (objGet g.metadata k = some v ↔
        (isValueKey k = false ∧ ∀ w ∈ g.values, objGet (g.metadata ++ w) k = some v)) := by
  intro g hg
  by_cases hd : data = []
  · subst hd
    simp [optimizeGroupingByCommonElements] at hg
  · rw [optimizeGroupingByCommonElements_groups data hd] at hg
    have hg2 : g ∈ optLoopF data.length data :=
      (sortByMetaDesc_perm _).mem_iff.mp hg
    obtain ⟨items, hne, hsub, hcg⟩ :=
      optLoopF_groups_from_items data.length data (le_refl _) g hg2
    subst hcg
    have hnditems : ∀ o ∈ items, (o.map Prod.fst).Nodup := fun o ho => hkeys o (hsub o ho)
    cases items with
    | nil => exact absurd rfl hne
    | cons it0 restI =>
      constructor
      · show (it0 :: restI).map _ ≠ []
        simp
      · intro k v
        constructor
        · intro hmd
          obtain ⟨_, hval, _⟩ := (mem_findCommonInArray it0 restI k v).mp
            (mem_of_objGet_eq _ k v hmd)
          refine ⟨hval, fun w _ => ?_⟩
          exact objGet_append_left _ _ k v hmd
        · rintro ⟨hval, hall⟩
          have hitem : ∀ item ∈ it0 :: restI, objGet item k = some v := by
            intro item hitm
            have hw := hall (extractVaryingProperties item (findCommonInArray (it0 :: restI)))
              (List.mem_map_of_mem _ hitm)
            cases hmk : objGet (findCommonInArray (it0 :: restI)) k with
            | some v2 =>
              have h2 := objGet_append_left (findCommonInArray (it0 :: restI))
                (extractVaryingProperties item (findCommonInArray (it0 :: restI))) k v2 hmk
              have hv2 : v2 = v := by
                have := h2.symm.trans hw
                simpa using this
              subst hv2
              exact metadata_objGet_item (it0 :: restI) hnditems item hitm k v2
                (mem_of_objGet_eq _ k v2 hmk)
            | none =>
              have h2 := objGet_append_right (findCommonInArray (it0 :: restI))
                (extractVaryingProperties item (findCommonInArray (it0 :: restI))) k hmk
              rw [show objGet ((createGroup (it0 :: restI)).metadata ++
                  extractVaryingProperties item (findCommonInArray (it0 :: restI))) k =
                  objGet (findCommonInArray (it0 :: restI) ++
                  extractVaryingProperties item (findCommonInArray (it0 :: restI))) k
                from rfl, h2] at hw
              have hmemitem : (k, v) ∈ item :=
                List.mem_of_mem_filter (mem_of_objGet_eq _ k v hw)
              exact objGet_eq_of_mem_nodup item (hnditems item hitm) k v hmemitem
          have hmdmem : (k, v) ∈ findCommonInArray (it0 :: restI) :=
            (mem_findCommonInArray it0 restI k v).mpr
              ⟨mem_of_objGet_eq it0 k v (hitem it0 (List.mem_cons_self _ _)), hval,
                fun it hti => hitem it (List.mem_cons_of_mem _ hti)⟩
          exact objGet_eq_of_mem_nodup _ (metadata_keys_nodup it0 restI
            (hnditems it0 (List.mem_cons_self _ _))) k v hmdmem

theorem optimizeGrouping_metadata_intersection_witness :
    (∀ o ∈ dataC45, (o.map Prod.fst).Nodup) ∧
    (∀ g ∈ (optimizeGroupingByCommonElements dataC45).groups,
      g.values ≠ [] ∧
      ∀ k v, (objGet g.metadata k = some v ↔
        (isValueKey k = false ∧ ∀ w ∈ g.values, objGet (g.metadata ++ w) k = some v))) :=
  ⟨by decide, optimizeGrouping_metadata_intersection dataC45 (by decide)⟩

end EStat
